import Mathlib

/-
  Verification development for the replicated session manager of the
  multi-raft storage node (package `session`: `managedSession`,
  `sessionProposal`, `primitiveProposal` and friends).

  The state machine below is a shallow embedding of the Go source.  The
  session owns an association list `props` mapping client sequence numbers
  to open session proposals (the Go map `sessionProposals`); the manager
  keeps a global primitive-proposal index (`primIndex`, the Go
  `sessionManagerStateMachine.proposals`) and the session keeps its own
  projection (`sessIndex`).  Observable side effects (outputs delivered to
  applier-supplied parent handles, invocations of the primitive adapter,
  watcher notifications) are recorded in append-only logs so that theorems
  can speak about them.  Timers model the deterministic scheduler of the
  applier (the scheduler itself is not part of the given sources; it is
  modelled from the spec: logical clock, schedule at an absolute logical
  time, idempotent cancel, a cancelled timer never fires).
-/

namespace SessionSM

/-- Proposal lifecycle phase (`statemachine.Phase`; the source spells
Running as `Runnnig`). -/
inductive Phase where
  | pending
  | running
  | canceled
  | complete
deriving DecidableEq, Repr

/-- Tagged union of `SessionProposalInput` bodies: a primitive proposal, a
CreatePrimitive request or a ClosePrimitive request.  Payloads are
abstracted to naturals. -/
inductive SPBody where
  | proposal (primitiveId payload : Nat)
  | createPrimitive (spec : Nat)
  | closePrimitive (primitiveId : Nat)
deriving DecidableEq, Repr

/-- `multiraftv1.SessionProposalInput`. -/
structure SPInput where
  sessionId : Nat
  seqNum : Nat
  deadline : Option Nat
  body : SPBody
deriving DecidableEq, Repr

/-- Tagged union of `SessionProposalOutput` bodies, including the failure
variant produced by `sessionProposal.Error`. -/
inductive OutBody where
  | proposal (payload : Nat)
  | createPrimitive (primitiveId : Nat)
  | closePrimitive
  | failure (status msg : Nat)
deriving DecidableEq, Repr

/-- `multiraftv1.SessionProposalOutput`: an output sequence number plus the
payload or failure. -/
structure SPOutput where
  seqNum : Nat
  body : OutBody
deriving DecidableEq, Repr

/-- The `sessionProposal` object: id is the Raft index of the creating
entry, `parent` is the currently bound applier handle (re-bound on every
retry), `timerRef` the deadline timer, `outputs` the cached outputs and
`outputSeqNum` the per-proposal output counter. -/
structure SProp where
  id : Nat
  input : SPInput
  phase : Phase
  parent : Option Nat
  timerRef : Option Nat
  outputs : List SPOutput
  outputSeqNum : Nat
deriving DecidableEq, Repr

/-- Session state (`session.State`). -/
inductive SessState where
  | opened
  | closed
deriving DecidableEq, Repr

/-- The observable core of a `managedSession`: identity, state, timeout,
`lastUpdated` and the `sessionProposals` map (as an association list keyed
by client sequence number). -/
structure Sess where
  sid : Nat
  state : SessState
  timeout : Nat
  lastUpdated : Nat
  props : List (Nat × SProp)
deriving DecidableEq, Repr

/-- What a scheduled timer does when it fires: session expiration, or
cancellation of the proposal stored at `seq` with object identity `pid`. -/
inductive TimerKind where
  | expire
  | deadline (seq pid : Nat)
deriving DecidableEq, Repr

/-- A scheduler timer: absolute logical fire time and liveness
(cancellation clears `alive`; a dead timer never fires). -/
structure TimerRec where
  tid : Nat
  fireAt : Nat
  kind : TimerKind
  alive : Bool
deriving DecidableEq, Repr

/-- What a parent (applier) handle observes. -/
inductive EmKind where
  | outp (o : SPOutput)
  | closedEm
  | canceledEm
  | openOut (sid : Nat)
  | unitOut
  | errOut
deriving DecidableEq, Repr

/-- One event delivered to an applier-supplied handle. -/
structure Emission where
  handle : Nat
  kind : EmKind
deriving DecidableEq, Repr

/-- Which primitive-adapter entry point was invoked. -/
inductive ACKind where
  | propose
  | createPrim
  | closePrim
deriving DecidableEq, Repr

/-- Watcher notifications: session closure, or a proposal phase change. -/
inductive WatchEv where
  | sessClosed
  | prop (pid : Nat) (ph : Phase)
deriving DecidableEq, Repr

/-- The whole model state: logical clock, registry membership of the (one)
session, the session core, both primitive-proposal indexes, the scheduler
timers, the applier-contract ghost `usedIds` (Raft indexes are unique), and
the observation logs.  `evicted` is a ghost log holding the final value of
every proposal object evicted from `sessionProposals` by a keep-alive. -/
structure MState where
  time : Nat
  registered : Bool
  sess : Sess
  primIndex : List Nat
  sessIndex : List Nat
  timers : List TimerRec
  expireRef : Option Nat
  nextTid : Nat
  usedIds : List Nat
  emissions : List Emission
  adapterCalls : List (ACKind × Nat × Nat)
  watcherLog : List WatchEv
  evicted : List SProp
deriving DecidableEq, Repr

/-- First-match association-list lookup (the Go map read). -/
def alookup {α : Type} : List (Nat × α) → Nat → Option α
  | [], _ => none
  | (k', v) :: rest, k => if k' = k then some v else alookup rest k

/-- Replace the value stored at a key (the Go map write on a present key). -/
def updEntry (l : List (Nat × SProp)) (k : Nat) (p : SProp) : List (Nat × SProp) :=
  l.map fun e => if e.1 = k then (k, p) else e

/-- Delete a key (the Go `delete`). -/
def removeEntry (l : List (Nat × SProp)) (k : Nat) : List (Nat × SProp) :=
  l.filter fun e => decide (e.1 ≠ k)

/-- `Timer.Cancel`: mark the timer dead. -/
def cancelTimer (ts : List TimerRec) (t : Nat) : List TimerRec :=
  ts.map fun tr => if tr.tid = t then { tr with alive := false } else tr

/-- Remove an id from a primitive-proposal index. -/
def removeId (l : List Nat) (x : Nat) : List Nat :=
  l.filter fun y => decide (y ≠ x)

/-- Big-endian 8-byte encoding of a sequence number
(`binary.BigEndian.PutUint64`). -/
def be8 (n : Nat) : List Nat :=
  [n / 256 ^ 7 % 256, n / 256 ^ 6 % 256, n / 256 ^ 5 % 256, n / 256 ^ 4 % 256,
   n / 256 ^ 3 % 256, n / 256 ^ 2 % 256, n / 256 % 256, n % 256]

namespace sessionProposal

/-- `sessionProposal.close(phase)`: set the phase, remove the id from the
manager's and the session's primitive-proposal indexes, cancel the deadline
timer, notify the proposal watchers.  The entry is NOT removed from
`sessionProposals`. -/
def closeWith (st : MState) (key : Nat) (ph : Phase) : MState :=
  match alookup st.sess.props key with
  | none => st
  | some p =>
    let st1 := { st with
      sess.props := updEntry st.sess.props key { p with phase := ph },
      primIndex := removeId st.primIndex p.id,
      sessIndex := removeId st.sessIndex p.id,
      watcherLog := st.watcherLog ++ [.prop p.id ph] }
    match p.timerRef with
    | some t => { st1 with timers := cancelTimer st1.timers t }
    | none => st1

/-- `sessionProposal.Close`: no-op unless Running; closes the bound parent
handle and transitions to Complete. -/
def Close (st : MState) (key : Nat) : MState :=
  match alookup st.sess.props key with
  | none => st
  | some p =>
    if p.phase ≠ .running then st
    else
      let st1 : MState :=
        match p.parent with
        | some h => { st with emissions := st.emissions ++ [⟨h, .closedEm⟩] }
        | none => st
      closeWith st1 key .complete

/-- `sessionProposal.Cancel`: no-op unless Running; cancels the bound parent
handle and transitions to Canceled. -/
def Cancel (st : MState) (key : Nat) : MState :=
  match alookup st.sess.props key with
  | none => st
  | some p =>
    if p.phase ≠ .running then st
    else
      let st1 : MState :=
        match p.parent with
        | some h => { st with emissions := st.emissions ++ [⟨h, .canceledEm⟩] }
        | none => st
      closeWith st1 key .canceled

/-- `sessionProposal.Output`: dropped iff the phase is Complete; otherwise
cache the output and forward it to the bound parent handle, if any. -/
def Output (st : MState) (key : Nat) (o : SPOutput) : MState :=
  match alookup st.sess.props key with
  | none => st
  | some p =>
    if p.phase = .complete then st
    else
      let st1 := { st with
        sess.props := updEntry st.sess.props key { p with outputs := p.outputs ++ [o] } }
      match p.parent with
      | some h => { st1 with emissions := st1.emissions ++ [⟨h, .outp o⟩] }
      | none => st1

/-- How the typed wrappers (`primitiveProposal`, `createPrimitiveProposal`,
`closePrimitiveProposal`) wrap a raw payload into a session output body. -/
def wrapBody : SPBody → Nat → OutBody
  | .proposal _ _, payload => .proposal payload
  | .createPrimitive _, payload => .createPrimitive payload
  | .closePrimitive _, _ => .closePrimitive

/-- The typed wrappers' `Output`: assign `nextSequenceNum()` (the counter is
incremented unconditionally, before `sessionProposal.Output` performs its
Complete check) and forward. -/
def wrapOut (st : MState) (key : Nat) (payload : Nat) : MState :=
  match alookup st.sess.props key with
  | none => st
  | some p =>
    let n := p.outputSeqNum + 1
    let st1 := { st with
      sess.props := updEntry st.sess.props key { p with outputSeqNum := n } }
    Output st1 key ⟨n, wrapBody p.input.body payload⟩

/-- `sessionProposal.Error`: returns early when Complete (no counter
increment); otherwise emits a failure output with the next sequence
number. -/
def Error (st : MState) (key : Nat) (status msg : Nat) : MState :=
  match alookup st.sess.props key with
  | none => st
  | some p =>
    if p.phase = .complete then st
    else
      let n := p.outputSeqNum + 1
      let st1 := { st with
        sess.props := updEntry st.sess.props key { p with outputSeqNum := n } }
      Output st1 key ⟨n, .failure status msg⟩

/-- `sessionProposal.ack(v)`: drop the longest front run of cached outputs
whose sequence numbers are at most `v` (the Go loop walks from the front and
stops at the first bigger one). -/
def ack (st : MState) (key : Nat) (v : Nat) : MState :=
  match alookup st.sess.props key with
  | none => st
  | some p =>
    { st with
      sess.props := updEntry st.sess.props key
        { p with outputs := p.outputs.dropWhile fun o => decide (o.seqNum ≤ v) } }

/-- `sessionProposal.replay`: re-bind the parent handle, re-emit every
cached output in order, and close the new handle iff the phase is
Complete. -/
def replay (st : MState) (h key : Nat) : MState :=
  match alookup st.sess.props key with
  | none => st
  | some p =>
    let st1 := { st with
      sess.props := updEntry st.sess.props key { p with parent := some h },
      emissions := st.emissions ++ p.outputs.map fun o => ⟨h, .outp o⟩ }
    if p.phase = .complete then
      { st1 with emissions := st1.emissions ++ [⟨h, .closedEm⟩] }
    else st1

end sessionProposal

/-- What a primitive adapter may do during one invocation: emit outputs,
errors, close or cancel on the proposal handle it was given (`Self`), or on
any proposal reachable through the primitive-proposal index (`To`, the
streaming pattern `Proposals().Get(id)`). -/
inductive AOp where
  | outSelf (payload : Nat)
  | errSelf (status msg : Nat)
  | closeSelf
  | cancelSelf
  | outTo (pid payload : Nat)
  | errTo (pid status msg : Nat)
  | closeTo (pid : Nat)
  | cancelTo (pid : Nat)
deriving DecidableEq, Repr

/-- `Proposals().Get(pid)`: resolve a primitive-proposal id through the
session's index, returning the client sequence number under which the
proposal is stored. -/
def findByPid (st : MState) (pid : Nat) : Option Nat :=
  if pid ∈ st.sessIndex then
    (st.sess.props.find? fun e => e.2.id == pid).map Prod.fst
  else none

/-- Run one adapter operation against the state; `key` is the sequence
number of the proposal whose handle the adapter was given. -/
def runOp (key : Nat) (st : MState) (op : AOp) : MState :=
  match op with
  | .outSelf payload => sessionProposal.wrapOut st key payload
  | .errSelf s m => sessionProposal.Error st key s m
  | .closeSelf => sessionProposal.Close st key
  | .cancelSelf => sessionProposal.Cancel st key
  | .outTo pid payload =>
    match findByPid st pid with
    | some k => sessionProposal.wrapOut st k payload
    | none => st
  | .errTo pid s m =>
    match findByPid st pid with
    | some k => sessionProposal.Error st k s m
    | none => st
  | .closeTo pid =>
    match findByPid st pid with
    | some k => sessionProposal.Close st k
    | none => st
  | .cancelTo pid =>
    match findByPid st pid with
    | some k => sessionProposal.Cancel st k
    | none => st

/-- Run an adapter script in order. -/
def runScript (key : Nat) (st : MState) (ops : List AOp) : MState :=
  ops.foldl (runOp key) st

namespace managedSession

/-- `managedSession.scheduleExpireTimer`: cancel the previous expire timer
and schedule a fresh one at `lastUpdated + timeout`. -/
def scheduleExpireTimer (st : MState) : MState :=
  let st1 : MState :=
    match st.expireRef with
    | some t => { st with timers := cancelTimer st.timers t }
    | none => st
  { st1 with
    timers := st1.timers ++
      [⟨st1.nextTid, st1.sess.lastUpdated + st1.sess.timeout, .expire, true⟩],
    expireRef := some st1.nextTid,
    nextTid := st1.nextTid + 1 }

/-- `sessionProposal.execute` without the adapter invocation effects of the
script: create the proposal in phase Running with the parent bound, insert
it into `sessionProposals`, schedule the deadline cancel timer if a deadline
is present, add a primitive-typed proposal to both primitive-proposal
indexes, and record which adapter entry point is invoked. -/
def executeCore (st : MState) (h pid : Nat) (inp : SPInput) : MState :=
  let key := inp.seqNum
  let p : SProp :=
    { id := pid, input := inp, phase := .running, parent := some h,
      timerRef := if inp.deadline.isSome then some st.nextTid else none,
      outputs := [], outputSeqNum := 0 }
  let st1 := { st with sess.props := st.sess.props ++ [(key, p)] }
  let st2 : MState :=
    match inp.deadline with
    | some d =>
      { st1 with
        timers := st1.timers ++ [⟨st1.nextTid, d, .deadline key pid, true⟩],
        nextTid := st1.nextTid + 1 }
    | none => st1
  match inp.body with
  | .proposal _ _ =>
    { st2 with
      primIndex := st2.primIndex ++ [pid],
      sessIndex := st2.sessIndex ++ [pid],
      adapterCalls := st2.adapterCalls ++ [(.propose, pid, key)] }
  | .createPrimitive _ =>
    { st2 with adapterCalls := st2.adapterCalls ++ [(.createPrim, pid, key)] }
  | .closePrimitive _ =>
    { st2 with adapterCalls := st2.adapterCalls ++ [(.closePrim, pid, key)] }

/-- `managedSession.propose`: replay when the sequence number is already in
`sessionProposals`, otherwise create and execute (the adapter's behaviour
during the invocation is the `script`). -/
def propose (st : MState) (h pid : Nat) (inp : SPInput) (script : List AOp) : MState :=
  if (alookup st.sess.props inp.seqNum).isSome then
    sessionProposal.replay st h inp.seqNum
  else
    runScript inp.seqNum (executeCore st h pid inp) script

/-- One iteration of the keep-alive loop over a proposal with sequence
number `key`: skip entries newer than `lastIn`; evict (Cancel + delete,
recording the evicted object in the ghost log) entries rejected by the
Bloom-filter test on the big-endian encoding; otherwise apply the
per-proposal output ack when present. -/
def kaStep (test : List Nat → Bool) (lastIn : Nat) (acks : List (Nat × Nat))
    (st : MState) (key : Nat) : MState :=
  match alookup st.sess.props key with
  | none => st
  | some p =>
    if lastIn < p.input.seqNum then st
    else if test (be8 p.input.seqNum) = false then
      let st1 := sessionProposal.Cancel st p.input.seqNum
      let gone := (alookup st1.sess.props p.input.seqNum).getD p
      { st1 with
        sess.props := removeEntry st1.sess.props p.input.seqNum,
        evicted := st1.evicted ++ [gone] }
    else
      match alookup acks p.input.seqNum with
      | some v => sessionProposal.ack st p.input.seqNum v
      | none => st

/-- `managedSession.keepAlive` (after a successful filter decode): process
every proposal, reply on the keep-alive handle, refresh `lastUpdated` to the
manager's logical time and reschedule the expire timer; the deferred close
of the keep-alive handle runs last. -/
def keepAlive (st : MState) (h : Nat) (test : List Nat → Bool) (lastIn : Nat)
    (acks : List (Nat × Nat)) : MState :=
  let st1 := (st.sess.props.map Prod.fst).foldl (kaStep test lastIn acks) st
  let st2 := { st1 with
    emissions := st1.emissions ++ [⟨h, .unitOut⟩],
    sess.lastUpdated := st1.time }
  let st3 := scheduleExpireTimer st2
  { st3 with emissions := st3.emissions ++ [⟨h, .closedEm⟩] }

/-- `managedSession.close`: deregister, cancel the expire timer, transition
to Closed, fire the session watchers, reply and close the handle.  Note:
`sessionProposals` and the primitive-proposal indexes are not touched. -/
def closeSess (st : MState) (h : Nat) : MState :=
  let st1 := { st with
    registered := false,
    sess.state := .closed,
    watcherLog := st.watcherLog ++ [.sessClosed] }
  let st2 : MState :=
    match st.expireRef with
    | some t => { st1 with timers := cancelTimer st1.timers t }
    | none => st1
  { st2 with emissions := st2.emissions ++ [⟨h, .unitOut⟩, ⟨h, .closedEm⟩] }

/-- `managedSession.expire`: triggered by the expire timer; deregister,
transition to Closed and fire the watchers.  Proposals are not touched. -/
def expire (st : MState) : MState :=
  { st with
    registered := false,
    sess.state := .closed,
    watcherLog := st.watcherLog ++ [.sessClosed] }

end managedSession

/-- Log entries applied to the session (plus scheduler activity): session
proposals with the adapter's behaviour as a script, keep-alives carrying the
decoded Bloom-filter test, session close, clock advance, and timer firing. -/
inductive Ev where
  | propose (h pid : Nat) (inp : SPInput) (script : List AOp)
  | keepAlive (h : Nat) (test : List Nat → Bool) (lastIn : Nat) (acks : List (Nat × Nat))
  | closeSession (h : Nat)
  | tick (t : Nat)
  | fire (tid : Nat)

/-- Apply one event.  Operations on an unregistered (closed or expired)
session fail with Forbidden at the manager; a timer only fires when it is
alive and due (a cancelled timer's callback is a no-op), and firing spends
the timer. -/
def stepEv (st : MState) : Ev → MState
  | .propose h pid inp script =>
    if st.registered then
      managedSession.propose { st with usedIds := st.usedIds ++ [pid] } h pid inp script
    else
      { st with usedIds := st.usedIds ++ [pid],
                emissions := st.emissions ++ [⟨h, .errOut⟩, ⟨h, .closedEm⟩] }
  | .keepAlive h test lastIn acks =>
    if st.registered then managedSession.keepAlive st h test lastIn acks
    else { st with emissions := st.emissions ++ [⟨h, .errOut⟩, ⟨h, .closedEm⟩] }
  | .closeSession h =>
    if st.registered then managedSession.closeSess st h
    else { st with emissions := st.emissions ++ [⟨h, .errOut⟩, ⟨h, .closedEm⟩] }
  | .tick t => { st with time := max st.time t }
  | .fire tid =>
    match st.timers.find? fun tr => tr.tid == tid with
    | none => st
    | some tr =>
      if tr.alive && decide (tr.fireAt ≤ st.time) then
        let st1 := { st with timers := cancelTimer st.timers tid }
        match tr.kind with
        | .expire => managedSession.expire st1
        | .deadline key pid =>
          match alookup st1.sess.props key with
          | some p => if p.id = pid then sessionProposal.Cancel st1 key else st1
          | none => st1
      else st

/-- `managedSession.open`: the state right after applying the OpenSession
entry with Raft index `pid` at logical time `t0` (handle `h` receives the
session id and is closed). -/
def openState (h pid timeoutv t0 : Nat) : MState :=
  { time := t0, registered := true,
    sess := { sid := pid, state := .opened, timeout := timeoutv,
              lastUpdated := t0, props := [] },
    primIndex := [], sessIndex := [],
    timers := [⟨0, t0 + timeoutv, .expire, true⟩],
    expireRef := some 0, nextTid := 1,
    usedIds := [pid],
    emissions := [⟨h, .openOut pid⟩, ⟨h, .closedEm⟩],
    adapterCalls := [], watcherLog := [], evicted := [] }

/-- The applier's contract: Raft indexes are unique, so a propose entry
never reuses an id. -/
def evOK (st : MState) : Ev → Prop
  | .propose _ pid _ _ => pid ∉ st.usedIds
  | _ => True

/-- States reachable from an opened session by applying log entries. -/
inductive Reach : MState → Prop
  | init (h pid timeoutv t0 : Nat) : Reach (openState h pid timeoutv t0)
  | step {st : MState} (e : Ev) : Reach st → evOK st e → Reach (stepEv st e)

/-- Fold a list of events. -/
def runEvs (st : MState) (evs : List Ev) : MState :=
  evs.foldl stepEv st

/-- The keys currently present in `sessionProposals`. -/
def keysOf (st : MState) : List Nat :=
  st.sess.props.map Prod.fst

/-- The emission produced by forwarding an output to an optionally bound
parent handle. -/
def outEm : Option Nat → SPOutput → List Emission
  | some h, o => [⟨h, .outp o⟩]
  | none, _ => []

@[simp] theorem alookup_cons (a : Nat) (b : α) (rest : List (Nat × α)) (k : Nat) :
    alookup ((a, b) :: rest) k = if a = k then some b else alookup rest k := rfl

@[simp] theorem updEntry_cons (a : Nat) (b : SProp) (rest : List (Nat × SProp))
    (k : Nat) (q : SProp) :
    updEntry ((a, b) :: rest) k q =
      (if a = k then (k, q) else (a, b)) :: updEntry rest k q := rfl

theorem alookup_updEntry_eq (l : List (Nat × SProp)) (k : Nat) (q : SProp) :
    alookup (updEntry l k q) k = (alookup l k).map fun _ => q := by
  induction l with
  | nil => rfl
  | cons e rest ih =>
    obtain ⟨a, b⟩ := e
    by_cases hek : a = k
    · subst hek
      simp
    · simp [hek, ih]

theorem alookup_updEntry_ne (l : List (Nat × SProp)) (k : Nat) (q : SProp)
    (k' : Nat) (h : k ≠ k') :
    alookup (updEntry l k q) k' = alookup l k' := by
  induction l with
  | nil => rfl
  | cons e rest ih =>
    obtain ⟨a, b⟩ := e
    by_cases hek : a = k
    · subst hek
      simp [h, ih]
    · simp [hek, ih]

theorem updEntry_updEntry (l : List (Nat × SProp)) (k : Nat) (q q' : SProp) :
    updEntry (updEntry l k q) k q' = updEntry l k q' := by
  induction l with
  | nil => rfl
  | cons e rest ih =>
    obtain ⟨a, b⟩ := e
    by_cases hek : a = k
    · subst hek
      simp [ih]
    · simp [hek, ih]

theorem output_char (st : MState) (key : Nat) (o : SPOutput) (p : SProp)
    (h1 : alookup st.sess.props key = some p) (h2 : p.phase ≠ Phase.complete) :
    sessionProposal.Output st key o =
      { st with
        sess.props := updEntry st.sess.props key { p with outputs := p.outputs ++ [o] },
        emissions := st.emissions ++ outEm p.parent o } := by
  unfold sessionProposal.Output
  rw [h1]
  simp only [h2, if_false]
  cases hpar : p.parent with
  | some hh => simp [outEm, hpar]
  | none => simp [outEm, hpar]

theorem output_complete (st : MState) (key : Nat) (o : SPOutput) (p : SProp)
    (h1 : alookup st.sess.props key = some p) (h2 : p.phase = Phase.complete) :
    sessionProposal.Output st key o = st := by
  unfold sessionProposal.Output
  rw [h1]
  simp [h2]

theorem wrapOut_char (st : MState) (key payload : Nat) (p : SProp)
    (h1 : alookup st.sess.props key = some p) (h2 : p.phase ≠ Phase.complete) :
    sessionProposal.wrapOut st key payload =
      { st with
        sess.props := updEntry st.sess.props key
          { p with outputSeqNum := p.outputSeqNum + 1,
                   outputs := p.outputs ++
                     [⟨p.outputSeqNum + 1, sessionProposal.wrapBody p.input.body payload⟩] },
        emissions := st.emissions ++
          outEm p.parent ⟨p.outputSeqNum + 1, sessionProposal.wrapBody p.input.body payload⟩ } := by
  unfold sessionProposal.wrapOut
  rw [h1]
  simp only
  rw [output_char _ _ _ { p with outputSeqNum := p.outputSeqNum + 1 }
    (by rw [alookup_updEntry_eq, h1]; rfl) h2]
  simp [updEntry_updEntry]

theorem wrapOut_complete (st : MState) (key payload : Nat) (p : SProp)
    (h1 : alookup st.sess.props key = some p) (h2 : p.phase = Phase.complete) :
    sessionProposal.wrapOut st key payload =
      { st with
        sess.props := updEntry st.sess.props key
          { p with outputSeqNum := p.outputSeqNum + 1 } } := by
  unfold sessionProposal.wrapOut
  rw [h1]
  simp only
  rw [output_complete _ _ _ { p with outputSeqNum := p.outputSeqNum + 1 }
    (by rw [alookup_updEntry_eq, h1]; rfl) h2]

theorem error_char (st : MState) (key status msg : Nat) (p : SProp)
    (h1 : alookup st.sess.props key = some p) (h2 : p.phase ≠ Phase.complete) :
    sessionProposal.Error st key status msg =
      { st with
        sess.props := updEntry st.sess.props key
          { p with outputSeqNum := p.outputSeqNum + 1,
                   outputs := p.outputs ++
                     [⟨p.outputSeqNum + 1, OutBody.failure status msg⟩] },
        emissions := st.emissions ++
          outEm p.parent ⟨p.outputSeqNum + 1, OutBody.failure status msg⟩ } := by
  unfold sessionProposal.Error
  rw [h1]
  simp only [h2, if_false]
  rw [output_char _ _ _ { p with outputSeqNum := p.outputSeqNum + 1 }
    (by rw [alookup_updEntry_eq, h1]; rfl) h2]
  simp [updEntry_updEntry]

theorem error_complete (st : MState) (key status msg : Nat) (p : SProp)
    (h1 : alookup st.sess.props key = some p) (h2 : p.phase = Phase.complete) :
    sessionProposal.Error st key status msg = st := by
  unfold sessionProposal.Error
  rw [h1]
  simp [h2]

/-- The emission sent to an optionally bound handle. -/
def emOpt : Option Nat → EmKind → List Emission
  | some h, k => [⟨h, k⟩]
  | none, _ => []

/-- Cancel an optionally referenced timer. -/
def cancelOpt (ts : List TimerRec) : Option Nat → List TimerRec
  | some t => cancelTimer ts t
  | none => ts

/-- Which adapter entry point an input body is dispatched to. -/
def acKindOf : SPBody → ACKind
  | .proposal _ _ => .propose
  | .createPrimitive _ => .createPrim
  | .closePrimitive _ => .closePrim

theorem keys_updEntry (l : List (Nat × SProp)) (k : Nat) (q : SProp) :
    (updEntry l k q).map Prod.fst = l.map Prod.fst := by
  induction l with
  | nil => rfl
  | cons e rest ih =>
    obtain ⟨a, b⟩ := e
    by_cases hek : a = k
    · subst hek
      simp [ih]
    · simp [hek, ih]

theorem mem_keys_iff_alookup (l : List (Nat × α)) (n : Nat) :
    n ∈ l.map Prod.fst ↔ (alookup l n).isSome := by
  induction l with
  | nil => simp [alookup]
  | cons e rest ih =>
    obtain ⟨a, b⟩ := e
    by_cases hek : a = n
    · subst hek
      simp
    · simp [hek, ih]
      exact fun h => absurd h.symm hek

theorem closeWith_char (st : MState) (key : Nat) (ph : Phase) (p : SProp)
    (h1 : alookup st.sess.props key = some p) :
    sessionProposal.closeWith st key ph =
      { st with
        sess.props := updEntry st.sess.props key { p with phase := ph },
        primIndex := removeId st.primIndex p.id,
        sessIndex := removeId st.sessIndex p.id,
        watcherLog := st.watcherLog ++ [.prop p.id ph],
        timers := cancelOpt st.timers p.timerRef } := by
  unfold sessionProposal.closeWith
  rw [h1]
  cases htr : p.timerRef with
  | some t => simp [cancelOpt, htr]
  | none => simp [cancelOpt, htr]

theorem close_char (st : MState) (key : Nat) (p : SProp)
    (h1 : alookup st.sess.props key = some p) (h2 : p.phase = Phase.running) :
    sessionProposal.Close st key =
      { st with
        sess.props := updEntry st.sess.props key { p with phase := .complete },
        primIndex := removeId st.primIndex p.id,
        sessIndex := removeId st.sessIndex p.id,
        watcherLog := st.watcherLog ++ [.prop p.id .complete],
        timers := cancelOpt st.timers p.timerRef,
        emissions := st.emissions ++ emOpt p.parent .closedEm } := by
  unfold sessionProposal.Close
  rw [h1]
  simp only [h2, ne_eq, not_true_eq_false, if_false]
  cases hpar : p.parent with
  | some hh =>
    rw [closeWith_char _ _ _ p (by simpa using h1)]
    simp [emOpt, hpar]
  | none =>
    rw [closeWith_char _ _ _ p (by simpa using h1)]
    simp [emOpt, hpar]

theorem close_noop (st : MState) (key : Nat) (p : SProp)
    (h1 : alookup st.sess.props key = some p) (h2 : p.phase ≠ Phase.running) :
    sessionProposal.Close st key = st := by
  unfold sessionProposal.Close
  rw [h1]
  simp [h2]

theorem close_none (st : MState) (key : Nat)
    (h1 : alookup st.sess.props key = none) :
    sessionProposal.Close st key = st := by
  unfold sessionProposal.Close
  rw [h1]

theorem cancel_char (st : MState) (key : Nat) (p : SProp)
    (h1 : alookup st.sess.props key = some p) (h2 : p.phase = Phase.running) :
    sessionProposal.Cancel st key =
      { st with
        sess.props := updEntry st.sess.props key { p with phase := .canceled },
        primIndex := removeId st.primIndex p.id,
        sessIndex := removeId st.sessIndex p.id,
        watcherLog := st.watcherLog ++ [.prop p.id .canceled],
        timers := cancelOpt st.timers p.timerRef,
        emissions := st.emissions ++ emOpt p.parent .canceledEm } := by
  unfold sessionProposal.Cancel
  rw [h1]
  simp only [h2, ne_eq, not_true_eq_false, if_false]
  cases hpar : p.parent with
  | some hh =>
    rw [closeWith_char _ _ _ p (by simpa using h1)]
    simp [emOpt, hpar]
  | none =>
    rw [closeWith_char _ _ _ p (by simpa using h1)]
    simp [emOpt, hpar]

theorem cancel_noop (st : MState) (key : Nat) (p : SProp)
    (h1 : alookup st.sess.props key = some p) (h2 : p.phase ≠ Phase.running) :
    sessionProposal.Cancel st key = st := by
  unfold sessionProposal.Cancel
  rw [h1]
  simp [h2]

theorem cancel_none (st : MState) (key : Nat)
    (h1 : alookup st.sess.props key = none) :
    sessionProposal.Cancel st key = st := by
  unfold sessionProposal.Cancel
  rw [h1]

theorem ack_char (st : MState) (key v : Nat) (p : SProp)
    (h1 : alookup st.sess.props key = some p) :
    sessionProposal.ack st key v =
      { st with
        sess.props := updEntry st.sess.props key
          { p with outputs := p.outputs.dropWhile fun o => decide (o.seqNum ≤ v) } } := by
  unfold sessionProposal.ack
  rw [h1]

theorem ack_none (st : MState) (key v : Nat)
    (h1 : alookup st.sess.props key = none) :
    sessionProposal.ack st key v = st := by
  unfold sessionProposal.ack
  rw [h1]

theorem output_none (st : MState) (key : Nat) (o : SPOutput)
    (h1 : alookup st.sess.props key = none) :
    sessionProposal.Output st key o = st := by
  unfold sessionProposal.Output
  rw [h1]

theorem wrapOut_none (st : MState) (key payload : Nat)
    (h1 : alookup st.sess.props key = none) :
    sessionProposal.wrapOut st key payload = st := by
  unfold sessionProposal.wrapOut
  rw [h1]

theorem error_none (st : MState) (key status msg : Nat)
    (h1 : alookup st.sess.props key = none) :
    sessionProposal.Error st key status msg = st := by
  unfold sessionProposal.Error
  rw [h1]

theorem replay_char (st : MState) (h key : Nat) (p : SProp)
    (h1 : alookup st.sess.props key = some p) :
    sessionProposal.replay st h key =
      { st with
        sess.props := updEntry st.sess.props key { p with parent := some h },
        emissions := (st.emissions ++ p.outputs.map fun o => ⟨h, EmKind.outp o⟩) ++
          (if p.phase = Phase.complete then [⟨h, EmKind.closedEm⟩] else []) } := by
  unfold sessionProposal.replay
  rw [h1]
  by_cases hc : p.phase = Phase.complete
  · simp [hc]
  · simp [hc]

theorem replay_none (st : MState) (h key : Nat)
    (h1 : alookup st.sess.props key = none) :
    sessionProposal.replay st h key = st := by
  unfold sessionProposal.replay
  rw [h1]

/-! ### Frame lemmas: adapter calls and proposal keys under the session ops -/

theorem output_frame (st : MState) (key : Nat) (o : SPOutput) :
    (sessionProposal.Output st key o).adapterCalls = st.adapterCalls ∧
    keysOf (sessionProposal.Output st key o) = keysOf st := by
  rcases h : alookup st.sess.props key with _ | p
  · rw [output_none st key o h]
    exact ⟨rfl, rfl⟩
  · by_cases hc : p.phase = Phase.complete
    · rw [output_complete st key o p h hc]
      exact ⟨rfl, rfl⟩
    · rw [output_char st key o p h hc]
      exact ⟨rfl, by simp [keysOf, keys_updEntry]⟩

theorem wrapOut_frame (st : MState) (key payload : Nat) :
    (sessionProposal.wrapOut st key payload).adapterCalls = st.adapterCalls ∧
    keysOf (sessionProposal.wrapOut st key payload) = keysOf st := by
  rcases h : alookup st.sess.props key with _ | p
  · rw [wrapOut_none st key payload h]
    exact ⟨rfl, rfl⟩
  · by_cases hc : p.phase = Phase.complete
    · rw [wrapOut_complete st key payload p h hc]
      exact ⟨rfl, by simp [keysOf, keys_updEntry]⟩
    · rw [wrapOut_char st key payload p h hc]
      exact ⟨rfl, by simp [keysOf, keys_updEntry]⟩

theorem error_frame (st : MState) (key status msg : Nat) :
    (sessionProposal.Error st key status msg).adapterCalls = st.adapterCalls ∧
    keysOf (sessionProposal.Error st key status msg) = keysOf st := by
  rcases h : alookup st.sess.props key with _ | p
  · rw [error_none st key status msg h]
    exact ⟨rfl, rfl⟩
  · by_cases hc : p.phase = Phase.complete
    · rw [error_complete st key status msg p h hc]
      exact ⟨rfl, rfl⟩
    · rw [error_char st key status msg p h hc]
      exact ⟨rfl, by simp [keysOf, keys_updEntry]⟩

theorem close_frame (st : MState) (key : Nat) :
    (sessionProposal.Close st key).adapterCalls = st.adapterCalls ∧
    keysOf (sessionProposal.Close st key) = keysOf st := by
  rcases h : alookup st.sess.props key with _ | p
  · rw [close_none st key h]
    exact ⟨rfl, rfl⟩
  · by_cases hr : p.phase = Phase.running
    · rw [close_char st key p h hr]
      exact ⟨rfl, by simp [keysOf, keys_updEntry]⟩
    · rw [close_noop st key p h hr]
      exact ⟨rfl, rfl⟩

theorem cancel_frame (st : MState) (key : Nat) :
    (sessionProposal.Cancel st key).adapterCalls = st.adapterCalls ∧
    keysOf (sessionProposal.Cancel st key) = keysOf st := by
  rcases h : alookup st.sess.props key with _ | p
  · rw [cancel_none st key h]
    exact ⟨rfl, rfl⟩
  · by_cases hr : p.phase = Phase.running
    · rw [cancel_char st key p h hr]
      exact ⟨rfl, by simp [keysOf, keys_updEntry]⟩
    · rw [cancel_noop st key p h hr]
      exact ⟨rfl, rfl⟩

theorem ack_frame (st : MState) (key v : Nat) :
    (sessionProposal.ack st key v).adapterCalls = st.adapterCalls ∧
    keysOf (sessionProposal.ack st key v) = keysOf st := by
  rcases h : alookup st.sess.props key with _ | p
  · rw [ack_none st key v h]
    exact ⟨rfl, rfl⟩
  · rw [ack_char st key v p h]
    exact ⟨rfl, by simp [keysOf, keys_updEntry]⟩

theorem replay_frame (st : MState) (h key : Nat) :
    (sessionProposal.replay st h key).adapterCalls = st.adapterCalls ∧
    keysOf (sessionProposal.replay st h key) = keysOf st := by
  rcases h1 : alookup st.sess.props key with _ | p
  · rw [replay_none st h key h1]
    exact ⟨rfl, rfl⟩
  · rw [replay_char st h key p h1]
    exact ⟨rfl, by simp [keysOf, keys_updEntry]⟩

theorem runOp_frame (key : Nat) (st : MState) (op : AOp) :
    (runOp key st op).adapterCalls = st.adapterCalls ∧
    keysOf (runOp key st op) = keysOf st := by
  cases op with
  | outSelf payload => exact wrapOut_frame st key payload
  | errSelf s m => exact error_frame st key s m
  | closeSelf => exact close_frame st key
  | cancelSelf => exact cancel_frame st key
  | outTo pid payload =>
    simp only [runOp]
    rcases hf : findByPid st pid with _ | k
    · exact ⟨rfl, rfl⟩
    · exact wrapOut_frame st k payload
  | errTo pid s m =>
    simp only [runOp]
    rcases hf : findByPid st pid with _ | k
    · exact ⟨rfl, rfl⟩
    · exact error_frame st k s m
  | closeTo pid =>
    simp only [runOp]
    rcases hf : findByPid st pid with _ | k
    · exact ⟨rfl, rfl⟩
    · exact close_frame st k
  | cancelTo pid =>
    simp only [runOp]
    rcases hf : findByPid st pid with _ | k
    · exact ⟨rfl, rfl⟩
    · exact cancel_frame st k

theorem runScript_frame (key : Nat) (ops : List AOp) :
    ∀ st : MState,
      (runScript key st ops).adapterCalls = st.adapterCalls ∧
      keysOf (runScript key st ops) = keysOf st := by
  induction ops with
  | nil => exact fun st => ⟨rfl, rfl⟩
  | cons op rest ih =>
    intro st
    have h1 := runOp_frame key st op
    have h2 := ih (runOp key st op)
    exact ⟨h2.1.trans h1.1, h2.2.trans h1.2⟩

theorem executeCore_adapterCalls (st : MState) (h pid : Nat) (inp : SPInput) :
    (managedSession.executeCore st h pid inp).adapterCalls =
      st.adapterCalls ++ [(acKindOf inp.body, pid, inp.seqNum)] := by
  unfold managedSession.executeCore
  rcases hd : inp.deadline with _ | d <;>
    rcases hb : inp.body with _ | _ | _ <;> simp [acKindOf, hd, hb]

theorem executeCore_keys (st : MState) (h pid : Nat) (inp : SPInput) :
    keysOf (managedSession.executeCore st h pid inp) = keysOf st ++ [inp.seqNum] := by
  unfold managedSession.executeCore
  rcases hd : inp.deadline with _ | d <;>
    rcases hb : inp.body with _ | _ | _ <;> simp [keysOf, hd, hb]

theorem kaStep_adapterCalls (test : List Nat → Bool) (lastIn : Nat)
    (acks : List (Nat × Nat)) (st : MState) (key : Nat) :
    (managedSession.kaStep test lastIn acks st key).adapterCalls = st.adapterCalls := by
  unfold managedSession.kaStep
  rcases h : alookup st.sess.props key with _ | p
  · rfl
  · by_cases h2 : lastIn < p.input.seqNum
    · simp [h2]
    · simp only [h2, if_false]
      by_cases h3 : test (be8 p.input.seqNum) = false
      · simp only [h3, if_true]
        exact (cancel_frame st p.input.seqNum).1
      · simp only [h3, if_false]
        rcases h4 : alookup acks p.input.seqNum with _ | v
        · rfl
        · exact (ack_frame st p.input.seqNum v).1

theorem kaFold_adapterCalls (test : List Nat → Bool) (lastIn : Nat)
    (acks : List (Nat × Nat)) (ks : List Nat) :
    ∀ st : MState,
      ((ks.foldl (managedSession.kaStep test lastIn acks) st).adapterCalls =
        st.adapterCalls) := by
  induction ks with
  | nil => exact fun st => rfl
  | cons k rest ih =>
    intro st
    simp only [List.foldl_cons]
    exact (ih _).trans (kaStep_adapterCalls test lastIn acks st k)

theorem scheduleExpire_adapterCalls (st : MState) :
    (managedSession.scheduleExpireTimer st).adapterCalls = st.adapterCalls := by
  unfold managedSession.scheduleExpireTimer
  rcases h : st.expireRef with _ | t <;> simp [h]

theorem keepAlive_adapterCalls (st : MState) (h : Nat) (test : List Nat → Bool)
    (lastIn : Nat) (acks : List (Nat × Nat)) :
    (managedSession.keepAlive st h test lastIn acks).adapterCalls = st.adapterCalls := by
  unfold managedSession.keepAlive
  simp only
  rw [show ∀ s : MState, (({ s with
        emissions := s.emissions ++ [⟨h, EmKind.closedEm⟩] } : MState)).adapterCalls =
      s.adapterCalls from fun s => rfl]
  rw [scheduleExpire_adapterCalls]
  exact kaFold_adapterCalls test lastIn acks _ st

theorem stepEv_adapterCalls_nonpropose (st : MState) (e : Ev)
    (he : ∀ h pid inp script, e ≠ Ev.propose h pid inp script) :
    (stepEv st e).adapterCalls = st.adapterCalls := by
  cases e with
  | propose h pid inp script => exact absurd rfl (he h pid inp script)
  | keepAlive h test lastIn acks =>
    by_cases hreg : st.registered
    · simp only [stepEv, hreg, if_true]
      exact keepAlive_adapterCalls st h test lastIn acks
    · simp [stepEv, hreg]
  | closeSession h =>
    by_cases hreg : st.registered
    · simp only [stepEv, hreg, if_true]
      unfold managedSession.closeSess
      rcases hr : st.expireRef with _ | t <;> simp [hr]
    · simp [stepEv, hreg]
  | tick t => rfl
  | fire tid =>
    simp only [stepEv]
    rcases hf : st.timers.find? (fun tr => tr.tid == tid) with _ | tr
    · rw [hf]
    · rw [hf]
      dsimp only
      by_cases ha : (tr.alive && decide (tr.fireAt ≤ st.time)) = true
      · rw [if_pos ha]
        rcases hk : tr.kind with _ | ⟨key, pid⟩
        · rfl
        · dsimp only
          rcases hl : alookup st.sess.props key with _ | p
          · rfl
          · dsimp only
            by_cases hid : p.id = pid
            · rw [if_pos hid]
              exact (cancel_frame _ key).1
            · rw [if_neg hid]
      · rw [if_neg ha]

/-! ### C1: idempotent, linearizable proposal handling -/

/-- How many times the primitive adapter has been invoked for client
sequence number `n`. -/
def callsFor (n : Nat) (st : MState) : Nat :=
  (st.adapterCalls.filter fun c => c.2.2 == n).length

theorem callsFor_congr (n : Nat) (x y : MState)
    (h : x.adapterCalls = y.adapterCalls) : callsFor n x = callsFor n y := by
  simp [callsFor, h]

theorem stepEv_propose_reg (st : MState) (h pid : Nat) (inp : SPInput)
    (script : List AOp) (hreg : st.registered = true) :
    stepEv st (.propose h pid inp script) =
      managedSession.propose { st with usedIds := st.usedIds ++ [pid] } h pid inp script := by
  simp [stepEv, hreg]

theorem propose_replay (st : MState) (h pid : Nat) (inp : SPInput)
    (script : List AOp) (p : SProp)
    (hp : alookup st.sess.props inp.seqNum = some p) :
    managedSession.propose st h pid inp script = sessionProposal.replay st h inp.seqNum := by
  unfold managedSession.propose
  rw [hp]
  rfl

theorem propose_execute (st : MState) (h pid : Nat) (inp : SPInput)
    (script : List AOp)
    (hp : alookup st.sess.props inp.seqNum = none) :
    managedSession.propose st h pid inp script =
      runScript inp.seqNum (managedSession.executeCore st h pid inp) script := by
  unfold managedSession.propose
  rw [hp]
  rfl

theorem runEvs_cons (st : MState) (e : Ev) (evs : List Ev) :
    runEvs st (e :: evs) = runEvs (stepEv st e) evs := rfl

theorem step_callsFor (st : MState) (e : Ev) (n : Nat) :
    callsFor n (stepEv st e) = callsFor n st ∨
    (callsFor n (stepEv st e) = callsFor n st + 1 ∧ n ∈ keysOf (stepEv st e) ∧
      alookup st.sess.props n = none) := by
  cases e with
  | propose h pid inp script =>
    by_cases hreg : st.registered = true
    · rw [stepEv_propose_reg st h pid inp script hreg]
      rcases hp : alookup st.sess.props inp.seqNum with _ | p
      · have hp0 : alookup ({ st with usedIds := st.usedIds ++ [pid] } : MState).sess.props
            inp.seqNum = none := hp
        rw [propose_execute _ h pid inp script hp0]
        by_cases hn : inp.seqNum = n
        · right
          subst hn
          refine ⟨?_, ?_, hp⟩
          · rw [callsFor_congr _ _ _ ((runScript_frame inp.seqNum script _).1)]
            have hacc := executeCore_adapterCalls
              { st with usedIds := st.usedIds ++ [pid] } h pid inp
            simp [callsFor, hacc, List.filter_append]
          · rw [(runScript_frame inp.seqNum script _).2, executeCore_keys]
            simp [keysOf]
        · left
          rw [callsFor_congr _ _ _ ((runScript_frame inp.seqNum script _).1)]
          have hacc := executeCore_adapterCalls
            { st with usedIds := st.usedIds ++ [pid] } h pid inp
          simp [callsFor, hacc, List.filter_append, hn]
      · left
        have hp0 : alookup ({ st with usedIds := st.usedIds ++ [pid] } : MState).sess.props
            inp.seqNum = some p := hp
        rw [propose_replay _ h pid inp script p hp0]
        exact callsFor_congr _ _ _ ((replay_frame _ h inp.seqNum).1)
    · left
      simp [stepEv, hreg, callsFor]
  | keepAlive h test lastIn acks =>
    exact Or.inl (callsFor_congr n _ _
      (stepEv_adapterCalls_nonpropose st _ (by intro _ _ _ _ hcon; cases hcon)))
  | closeSession h =>
    exact Or.inl (callsFor_congr n _ _
      (stepEv_adapterCalls_nonpropose st _ (by intro _ _ _ _ hcon; cases hcon)))
  | tick t =>
    exact Or.inl (callsFor_congr n _ _
      (stepEv_adapterCalls_nonpropose st _ (by intro _ _ _ _ hcon; cases hcon)))
  | fire tid =>
    exact Or.inl (callsFor_congr n _ _
      (stepEv_adapterCalls_nonpropose st _ (by intro _ _ _ _ hcon; cases hcon)))

theorem callsFor_run (n : Nat) :
    ∀ (evs : List Ev) (st : MState),
      (∀ l1 e l2, evs = l1 ++ e :: l2 → n ∈ keysOf (runEvs st l1) →
        n ∈ keysOf (runEvs st (l1 ++ [e]))) →
      (callsFor n (runEvs st evs) ≤
        callsFor n st + (if n ∈ keysOf st then 0 else 1)) ∧
      (n ∈ keysOf st → callsFor n (runEvs st evs) = callsFor n st) := by
  intro evs
  induction evs with
  | nil =>
    intro st _
    exact ⟨Nat.le_add_right _ _, fun _ => rfl⟩
  | cons e rest ih =>
    intro st hp
    have hp' : ∀ l1 e' l2, rest = l1 ++ e' :: l2 →
        n ∈ keysOf (runEvs (stepEv st e) l1) →
        n ∈ keysOf (runEvs (stepEv st e) (l1 ++ [e'])) := by
      intro l1 e' l2 hsplit hmem
      have := hp (e :: l1) e' l2 (by rw [hsplit, List.cons_append]) hmem
      exact this
    have hHead : n ∈ keysOf st → n ∈ keysOf (stepEv st e) := by
      intro hmem
      have := hp [] e rest rfl hmem
      exact this
    obtain ⟨ihle, iheq⟩ := ih (stepEv st e) hp'
    have hnotmem : alookup st.sess.props n = none → n ∉ keysOf st := by
      intro hnone hmem
      rw [keysOf, mem_keys_iff_alookup, hnone] at hmem
      cases hmem
    constructor
    · by_cases hmem : n ∈ keysOf st
      · rcases step_callsFor st e n with hL | ⟨_, _, hnone⟩
        · rw [runEvs_cons, iheq (hHead hmem), hL]
          simp [hmem]
        · exact absurd hmem (hnotmem hnone)
      · rcases step_callsFor st e n with hL | ⟨hR, hmem', _⟩
        · calc callsFor n (runEvs st (e :: rest))
              ≤ callsFor n (stepEv st e) +
                (if n ∈ keysOf (stepEv st e) then 0 else 1) := ihle
            _ ≤ callsFor n st + 1 := by rw [hL]; split <;> omega
            _ = callsFor n st + (if n ∈ keysOf st then 0 else 1) := by simp [hmem]
        · rw [runEvs_cons, iheq hmem', hR]
          simp [hmem]
    · intro hmem
      rcases step_callsFor st e n with hL | ⟨_, _, hnone⟩
      · rw [runEvs_cons, iheq (hHead hmem), hL]
      · exact absurd hmem (hnotmem hnone)

/-- C1: Idempotent, linearizable proposal handling.  (1) Applying a Propose
entry whose sequence number is already in `sessionProposals` replays: the
primitive adapter is not invoked, the cached outputs are re-emitted in FIFO
order to the newly bound parent handle, and that handle is closed iff the
proposal's phase is Complete.  (2) Applying a Propose entry with a fresh
sequence number invokes the adapter exactly once.  (3) Over any sequence of
applied log entries during which the entry for sequence number `n` is never
evicted from `sessionProposals`, the adapter is invoked at most once for
`n`. -/
theorem c1_linearizable_idempotent_replay
    (st : MState) (_hreach : Reach st) (hreg : st.registered = true)
    (h pid : Nat) (inp : SPInput) (script : List AOp) :
    (∀ p, alookup st.sess.props inp.seqNum = some p →
      stepEv st (.propose h pid inp script) =
        { st with
          usedIds := st.usedIds ++ [pid],
          sess.props := updEntry st.sess.props inp.seqNum { p with parent := some h },
          emissions := (st.emissions ++ p.outputs.map fun o => ⟨h, EmKind.outp o⟩) ++
            (if p.phase = Phase.complete then [⟨h, EmKind.closedEm⟩] else []) }) ∧
    (alookup st.sess.props inp.seqNum = none →
      (stepEv st (.propose h pid inp script)).adapterCalls =
        st.adapterCalls ++ [(acKindOf inp.body, pid, inp.seqNum)]) ∧
    (∀ (evs : List Ev) (n : Nat),
      (∀ l1 e l2, evs = l1 ++ e :: l2 → n ∈ keysOf (runEvs st l1) →
        n ∈ keysOf (runEvs st (l1 ++ [e]))) →
      callsFor n (runEvs st evs) ≤
        callsFor n st + (if n ∈ keysOf st then 0 else 1)) := by
  refine ⟨?_, ?_, ?_⟩
  · intro p hp
    have hp0 : alookup ({ st with usedIds := st.usedIds ++ [pid] } : MState).sess.props
        inp.seqNum = some p := hp
    rw [stepEv_propose_reg st h pid inp script hreg,
      propose_replay _ h pid inp script p hp0,
      replay_char _ h inp.seqNum p hp0]
  · intro hp
    have hp0 : alookup ({ st with usedIds := st.usedIds ++ [pid] } : MState).sess.props
        inp.seqNum = none := hp
    rw [stepEv_propose_reg st h pid inp script hreg,
      propose_execute _ h pid inp script hp0,
      (runScript_frame inp.seqNum script _).1,
      executeCore_adapterCalls _ h pid inp]
  · intro evs n hpersist
    exact (callsFor_run n evs st hpersist).1

/-- The input used by the C1 witness. -/
def inpC1 : SPInput := ⟨1, 1, none, .proposal 1 0⟩

/-- A reachable state with an executed (still running) proposal under
sequence number 1: open a session, then apply one Propose entry. -/
def stC1 : MState := stepEv (openState 9 1 60 0) (.propose 8 2 inpC1 [])

/-- The proposal object stored in `stC1` under sequence number 1. -/
def pC1 : SProp :=
  { id := 2, input := inpC1, phase := .running, parent := some 8,
    timerRef := none, outputs := [], outputSeqNum := 0 }

/-- Witness for C1: the concrete reachable state `stC1` satisfies the
hypotheses, and retrying sequence number 1 replays without invoking the
adapter. -/
theorem c1_witness :
    (Reach stC1 ∧ stC1.registered = true ∧ alookup stC1.sess.props 1 = some pC1) ∧
    stepEv stC1 (.propose 7 3 inpC1 []) =
      { stC1 with
        usedIds := stC1.usedIds ++ [3],
        sess.props := updEntry stC1.sess.props 1 { pC1 with parent := some 7 },
        emissions := (stC1.emissions ++ pC1.outputs.map fun o => ⟨7, EmKind.outp o⟩) ++
          (if pC1.phase = Phase.complete then [⟨7, EmKind.closedEm⟩] else []) } :=
  ⟨⟨Reach.step _ (Reach.init 9 1 60 0)
      (show (2 : Nat) ∉ (openState 9 1 60 0).usedIds by decide), by decide, by decide⟩,
   (c1_linearizable_idempotent_replay stC1
      (Reach.step _ (Reach.init 9 1 60 0)
        (show (2 : Nat) ∉ (openState 9 1 60 0).usedIds by decide)) (by decide)
      7 3 inpC1 []).1 pC1 (by decide)⟩

/-! ### Association-list and timer-list membership lemmas -/

theorem alookup_mem {α : Type} (l : List (Nat × α)) (k : Nat) (v : α)
    (h : alookup l k = some v) : (k, v) ∈ l := by
  induction l with
  | nil => cases h
  | cons e rest ih =>
    obtain ⟨a, b⟩ := e
    rw [alookup_cons] at h
    split at h
    · next hek =>
      injection h with hv
      subst hv
      subst hek
      exact List.mem_cons_self _ _
    · exact List.mem_cons_of_mem _ (ih h)

theorem alookup_of_mem_nodup {α : Type} (l : List (Nat × α))
    (hnd : (l.map Prod.fst).Nodup) (k : Nat) (v : α) (h : (k, v) ∈ l) :
    alookup l k = some v := by
  induction l with
  | nil => cases h
  | cons e rest ih =>
    obtain ⟨a, b⟩ := e
    simp only [List.map_cons, List.nodup_cons] at hnd
    rcases List.mem_cons.mp h with heq | hmem
    · cases heq
      simp [alookup_cons]
    · by_cases hek : a = k
      · exfalso
        subst hek
        exact hnd.1 (List.mem_map.mpr ⟨(a, v), hmem, rfl⟩)
      · simp only [alookup_cons, if_neg hek]
        exact ih hnd.2 hmem

theorem mem_updEntry (l : List (Nat × SProp)) (k : Nat) (q : SProp)
    (e : Nat × SProp) (h : e ∈ updEntry l k q) :
    (e ∈ l ∧ e.1 ≠ k) ∨ e = (k, q) := by
  induction l with
  | nil => cases h
  | cons e0 rest ih =>
    obtain ⟨a, b⟩ := e0
    by_cases hek : a = k
    · subst hek
      simp only [updEntry_cons, if_pos rfl] at h
      rcases List.mem_cons.mp h with heq | hmem
      · exact Or.inr heq
      · rcases ih hmem with ⟨h1, h2⟩ | h1
        · exact Or.inl ⟨List.mem_cons_of_mem _ h1, h2⟩
        · exact Or.inr h1
    · simp only [updEntry_cons, if_neg hek] at h
      rcases List.mem_cons.mp h with heq | hmem
      · subst heq
        exact Or.inl ⟨List.mem_cons_self _ _, hek⟩
      · rcases ih hmem with ⟨h1, h2⟩ | h1
        · exact Or.inl ⟨List.mem_cons_of_mem _ h1, h2⟩
        · exact Or.inr h1

theorem mem_updEntry_of_ne (l : List (Nat × SProp)) (k : Nat) (q : SProp)
    (e : Nat × SProp) (h : e ∈ l) (hne : e.1 ≠ k) : e ∈ updEntry l k q := by
  induction l with
  | nil => cases h
  | cons e0 rest ih =>
    obtain ⟨a, b⟩ := e0
    rcases List.mem_cons.mp h with heq | hmem
    · subst heq
      by_cases hek : a = k
      · exact absurd hek hne
      · simp only [updEntry_cons, if_neg hek]
        exact List.mem_cons_self _ _
    · by_cases hek : a = k <;> simp only [updEntry_cons, hek, if_pos, if_neg] <;>
        exact List.mem_cons_of_mem _ (ih hmem)

theorem mem_updEntry_self (l : List (Nat × SProp)) (k : Nat) (p q : SProp)
    (h : alookup l k = some p) : (k, q) ∈ updEntry l k q := by
  induction l with
  | nil => cases h
  | cons e0 rest ih =>
    obtain ⟨a, b⟩ := e0
    by_cases hek : a = k
    · subst hek
      simp only [updEntry_cons, if_pos rfl]
      exact List.mem_cons_self _ _
    · simp only [alookup_cons, if_neg hek] at h
      simp only [updEntry_cons, if_neg hek]
      exact List.mem_cons_of_mem _ (ih h)

theorem updEntry_map_snd {β : Type} (g : SProp → β) (l : List (Nat × SProp))
    (k : Nat) (q : SProp) (hg : ∀ e ∈ l, e.1 = k → g e.2 = g q) :
    (updEntry l k q).map (fun e => g e.2) = l.map (fun e => g e.2) := by
  induction l with
  | nil => rfl
  | cons e0 rest ih =>
    obtain ⟨a, b⟩ := e0
    have hg' : ∀ e ∈ rest, e.1 = k → g e.2 = g q := fun e he => hg e (List.mem_cons_of_mem _ he)
    by_cases hek : a = k
    · subst hek
      simp [ih hg', hg (a, b) (List.mem_cons_self _ _) rfl]
    · simp [hek, ih hg']

theorem mem_removeEntry (l : List (Nat × SProp)) (k : Nat) (e : Nat × SProp) :
    e ∈ removeEntry l k ↔ e ∈ l ∧ e.1 ≠ k := by
  simp [removeEntry, List.mem_filter]

theorem removeEntry_sublist (l : List (Nat × SProp)) (k : Nat) :
    List.Sublist (removeEntry l k) l := List.filter_sublist l

theorem mem_removeId (l : List Nat) (x y : Nat) :
    y ∈ removeId l x ↔ y ∈ l ∧ y ≠ x := by
  simp [removeId, List.mem_filter]

theorem alive_mem_cancelTimer (ts : List TimerRec) (t : Nat) (tr : TimerRec)
    (h : tr ∈ cancelTimer ts t) (halive : tr.alive = true) : tr ∈ ts := by
  obtain ⟨tr0, htr0, heq⟩ := List.mem_map.mp h
  by_cases hq : tr0.tid = t
  · rw [if_pos hq] at heq
    rw [← heq] at halive
    cases halive
  · rw [if_neg hq] at heq
    exact heq ▸ htr0

theorem alive_mem_cancelOpt (ts : List TimerRec) (r : Option Nat) (tr : TimerRec)
    (h : tr ∈ cancelOpt ts r) (halive : tr.alive = true) : tr ∈ ts := by
  cases r with
  | none => exact h
  | some t => exact alive_mem_cancelTimer ts t tr h halive

theorem not_alive_cancelTimer_self (ts : List TimerRec) (t : Nat) (tr : TimerRec)
    (h : tr ∈ cancelTimer ts t) (htid : tr.tid = t) : tr.alive = false := by
  obtain ⟨tr0, htr0, heq⟩ := List.mem_map.mp h
  by_cases hq : tr0.tid = t
  · rw [if_pos hq] at heq
    rw [← heq]
  · rw [if_neg hq] at heq
    rw [← heq] at htid
    exact absurd htid hq

/-! ### Output-list shape: contiguous output sequence numbers -/

/-- Whether a body is a primitive proposal (the only kind indexed in the
primitive-proposal maps). -/
def primBody : SPBody → Bool
  | .proposal _ _ => true
  | _ => false

/-- The shape invariant of a proposal's cached outputs: the sequence
numbers form the contiguous range `a+1 .. b` for some acked prefix bound
`a`, where `b` is the output counter — except that a proposal that has been
completed may have had later counter increments from outputs emitted after
close (which are dropped), so there only `b ≤ counter` holds. -/
def OutShape (p : SProp) : Prop :=
  ∃ a b, a ≤ b ∧ b ≤ p.outputSeqNum ∧
    (p.phase = Phase.complete ∨ b = p.outputSeqNum) ∧
    p.outputs.map SPOutput.seqNum = List.range' (a + 1) (b - a)

/-- The master state invariant preserved by every applied log entry. -/
structure Inv (st : MState) : Prop where
  keysNodup : (st.sess.props.map Prod.fst).Nodup
  keySeq : ∀ e ∈ st.sess.props, e.2.input.seqNum = e.1
  outShape : ∀ e ∈ st.sess.props, OutShape e.2
  idxEq : st.sessIndex = st.primIndex
  prim : ∀ pid, pid ∈ st.primIndex ↔ ∃ e ∈ st.sess.props, e.2.id = pid ∧
      e.2.phase = Phase.running ∧ primBody e.2.input.body = true
  expSync : ∀ tr ∈ st.timers, tr.kind = TimerKind.expire → tr.alive = true →
      st.expireRef = some tr.tid ∧ tr.fireAt = st.sess.lastUpdated + st.sess.timeout
  luLe : st.sess.lastUpdated ≤ st.time
  idsUsed : ∀ e ∈ st.sess.props, e.2.id ∈ st.usedIds
  idsNodup : (st.sess.props.map fun e => e.2.id).Nodup

/-! ### Invariant transport lemmas -/

theorem range'_snoc (a b : Nat) (hab : a ≤ b) :
    List.range' (a + 1) (b - a) ++ [b + 1] = List.range' (a + 1) (b + 1 - a) := by
  have h1 : b + 1 - a = (b - a) + 1 := by omega
  have h2 : (a + 1) + 1 * (b - a) = b + 1 := by omega
  rw [h1, @List.range'_concat 1 (a + 1) (b - a), h2]

theorem dropWhile_range' (v : Nat) : ∀ (n s : Nat),
    (List.range' s n).dropWhile (fun x => decide (x ≤ v)) =
      List.range' (max s (v + 1)) (n - (max s (v + 1) - s)) := by
  intro n
  induction n with
  | zero => intro s; simp
  | succ n ih =>
    intro s
    rw [List.range'_succ, List.dropWhile_cons]
    by_cases hsv : s ≤ v
    · rw [if_pos (by simpa using hsv), ih (s + 1)]
      have h1 : max (s + 1) (v + 1) = max s (v + 1) := by omega
      rw [h1]
      congr 1
      omega
    · rw [if_neg (by simpa using hsv)]
      have h1 : max s (v + 1) = s := by omega
      rw [h1]
      simp [List.range'_succ]

/-- Invariant transport when every invariant-relevant field is unchanged
(steps that only touch logs, emissions, registration or session state). -/
theorem inv_fields (st st' : MState) (hinv : Inv st)
    (hp : st'.sess.props = st.sess.props)
    (hpi : st'.primIndex = st.primIndex)
    (hsi : st'.sessIndex = st.sessIndex)
    (ht : st'.timers = st.timers)
    (her : st'.expireRef = st.expireRef)
    (hlu : st'.sess.lastUpdated = st.sess.lastUpdated)
    (hto : st'.sess.timeout = st.sess.timeout)
    (htm : st'.time = st.time)
    (hu : st'.usedIds = st.usedIds) : Inv st' := by
  refine ⟨?_, ?_, ?_, ?_, ?_, ?_, ?_, ?_, ?_⟩
  · rw [hp]; exact hinv.keysNodup
  · rw [hp]; exact hinv.keySeq
  · rw [hp]; exact hinv.outShape
  · rw [hsi, hpi]; exact hinv.idxEq
  · rw [hpi, hp]; exact hinv.prim
  · rw [ht, her, hlu, hto]; exact hinv.expSync
  · rw [hlu, htm]; exact hinv.luLe
  · rw [hp, hu]; exact hinv.idsUsed
  · rw [hp]; exact hinv.idsNodup

/-- Invariant transport for a pure entry update: the proposal stored under
`key` is replaced by `q`, which keeps its id, input and phase and satisfies
the output-shape invariant. -/
theorem inv_entryUpdate (st st' : MState) (key : Nat) (p q : SProp)
    (hinv : Inv st) (h : alookup st.sess.props key = some p)
    (hid : q.id = p.id) (hin : q.input = p.input) (hph : q.phase = p.phase)
    (hshape : OutShape q)
    (hp : st'.sess.props = updEntry st.sess.props key q)
    (hpi : st'.primIndex = st.primIndex)
    (hsi : st'.sessIndex = st.sessIndex)
    (ht : st'.timers = st.timers)
    (her : st'.expireRef = st.expireRef)
    (hlu : st'.sess.lastUpdated = st.sess.lastUpdated)
    (hto : st'.sess.timeout = st.sess.timeout)
    (htm : st'.time = st.time)
    (hu : st'.usedIds = st.usedIds) : Inv st' := by
  have hkp : (key, p) ∈ st.sess.props := alookup_mem _ _ _ h
  have hpkey : p.input.seqNum = key := hinv.keySeq (key, p) hkp
  refine ⟨?_, ?_, ?_, ?_, ?_, ?_, ?_, ?_, ?_⟩
  · rw [hp, keys_updEntry]; exact hinv.keysNodup
  · rw [hp]
    intro e he
    rcases mem_updEntry _ _ _ _ he with ⟨hel, _⟩ | heq
    · exact hinv.keySeq e hel
    · subst heq
      show q.input.seqNum = key
      rw [hin]; exact hpkey
  · rw [hp]
    intro e he
    rcases mem_updEntry _ _ _ _ he with ⟨hel, _⟩ | heq
    · exact hinv.outShape e hel
    · subst heq; exact hshape
  · rw [hsi, hpi]; exact hinv.idxEq
  · rw [hpi, hp]
    intro pid
    constructor
    · intro hmem
      obtain ⟨e, hel, hide, hrun, hprim⟩ := (hinv.prim pid).mp hmem
      by_cases hkey : e.1 = key
      · have hmem' : (key, e.2) ∈ st.sess.props := by
          have h0 : (e.1, e.2) ∈ st.sess.props := by rw [Prod.mk.eta]; exact hel
          rwa [hkey] at h0
        have hl2 := alookup_of_mem_nodup _ hinv.keysNodup key e.2 hmem'
        rw [h] at hl2
        injection hl2 with he2
        refine ⟨(key, q), mem_updEntry_self _ _ p q h, ?_, ?_, ?_⟩
        · show q.id = pid
          rw [hid, he2]; exact hide
        · show q.phase = Phase.running
          rw [hph, he2]; exact hrun
        · show primBody q.input.body = true
          rw [hin, he2]; exact hprim
      · exact ⟨e, mem_updEntry_of_ne _ _ _ e hel hkey, hide, hrun, hprim⟩
    · rintro ⟨e, he, hide, hrun, hprim⟩
      rcases mem_updEntry _ _ _ _ he with ⟨hel, _⟩ | heq
      · exact (hinv.prim pid).mpr ⟨e, hel, hide, hrun, hprim⟩
      · subst heq
        refine (hinv.prim pid).mpr ⟨(key, p), hkp, ?_, ?_, ?_⟩
        · show p.id = pid
          rw [← hid]; exact hide
        · show p.phase = Phase.running
          rw [← hph]; exact hrun
        · show primBody p.input.body = true
          rw [← hin]; exact hprim
  · rw [ht, her, hlu, hto]; exact hinv.expSync
  · rw [hlu, htm]; exact hinv.luLe
  · rw [hp, hu]
    intro e he
    rcases mem_updEntry _ _ _ _ he with ⟨hel, _⟩ | heq
    · exact hinv.idsUsed e hel
    · subst heq
      show q.id ∈ st.usedIds
      rw [hid]; exact hinv.idsUsed (key, p) hkp
  · rw [hp, updEntry_map_snd SProp.id st.sess.props key q ?_]
    · exact hinv.idsNodup
    · intro e hel hek
      have hmem' : (key, e.2) ∈ st.sess.props := by
        have h0 : (e.1, e.2) ∈ st.sess.props := by rw [Prod.mk.eta]; exact hel
        rwa [hek] at h0
      have hl2 := alookup_of_mem_nodup _ hinv.keysNodup key e.2 hmem'
      rw [h] at hl2
      injection hl2 with he2
      show SProp.id e.2 = SProp.id q
      rw [← he2, hid]

/-- Invariant transport for `sessionProposal.close(phase)` applied to a
Running proposal: the phase becomes Complete or Canceled, the id leaves
both primitive-proposal indexes, the deadline timer is cancelled. -/
theorem inv_finish (st st' : MState) (key : Nat) (p : SProp) (ph : Phase)
    (hinv : Inv st) (h : alookup st.sess.props key = some p)
    (hrun : p.phase = Phase.running)
    (hph : ph = Phase.complete ∨ ph = Phase.canceled)
    (hp : st'.sess.props = updEntry st.sess.props key { p with phase := ph })
    (hpi : st'.primIndex = removeId st.primIndex p.id)
    (hsi : st'.sessIndex = removeId st.sessIndex p.id)
    (ht : st'.timers = cancelOpt st.timers p.timerRef)
    (her : st'.expireRef = st.expireRef)
    (hlu : st'.sess.lastUpdated = st.sess.lastUpdated)
    (hto : st'.sess.timeout = st.sess.timeout)
    (htm : st'.time = st.time)
    (hu : st'.usedIds = st.usedIds) : Inv st' := by
  have hkp : (key, p) ∈ st.sess.props := alookup_mem _ _ _ h
  have hphne : ph ≠ Phase.running := by
    rcases hph with h1 | h1 <;> (subst h1; intro hcon; cases hcon)
  refine ⟨?_, ?_, ?_, ?_, ?_, ?_, ?_, ?_, ?_⟩
  · rw [hp, keys_updEntry]; exact hinv.keysNodup
  · rw [hp]
    intro e he
    rcases mem_updEntry _ _ _ _ he with ⟨hel, _⟩ | heq
    · exact hinv.keySeq e hel
    · subst heq
      exact hinv.keySeq (key, p) hkp
  · rw [hp]
    intro e he
    rcases mem_updEntry _ _ _ _ he with ⟨hel, _⟩ | heq
    · exact hinv.outShape e hel
    · subst heq
      obtain ⟨a, b, hab, hb, hdisj, hmap⟩ := hinv.outShape (key, p) hkp
      have hbe : b = p.outputSeqNum := by
        rcases hdisj with h1 | h1
        · rw [hrun] at h1; cases h1
        · exact h1
      refine ⟨a, b, hab, hb, ?_, hmap⟩
      rcases hph with h1 | h1
      · exact Or.inl (by rw [h1])
      · exact Or.inr hbe
  · rw [hsi, hpi, hinv.idxEq]
  · rw [hpi, hp]
    intro pid'
    rw [mem_removeId]
    constructor
    · rintro ⟨hmem, hne⟩
      obtain ⟨e, hel, hide, hrune, hprime⟩ := (hinv.prim pid').mp hmem
      have hkeyne : e.1 ≠ key := by
        intro hkey
        have hmem' : (key, e.2) ∈ st.sess.props := by
          have h0 : (e.1, e.2) ∈ st.sess.props := by rw [Prod.mk.eta]; exact hel
          rwa [hkey] at h0
        have hl2 := alookup_of_mem_nodup _ hinv.keysNodup key e.2 hmem'
        rw [h] at hl2
        injection hl2 with he2
        exact hne (by rw [← hide, ← he2])
      exact ⟨e, mem_updEntry_of_ne _ _ _ e hel hkeyne, hide, hrune, hprime⟩
    · rintro ⟨e, he, hide, hrune, hprime⟩
      rcases mem_updEntry _ _ _ _ he with ⟨hel, hene⟩ | heq
      · refine ⟨(hinv.prim pid').mpr ⟨e, hel, hide, hrune, hprime⟩, ?_⟩
        intro hpe
        have heqp : e = (key, p) := by
          apply List.inj_on_of_nodup_map hinv.idsNodup hel hkp
          show e.2.id = p.id
          rw [hide, hpe]
        exact hene (by rw [heqp])
      · subst heq
        exact absurd hrune hphne
  · rw [ht, her, hlu, hto]
    intro tr htr hk halive
    exact hinv.expSync tr (alive_mem_cancelOpt _ _ _ htr halive) hk halive
  · rw [hlu, htm]; exact hinv.luLe
  · rw [hp, hu]
    intro e he
    rcases mem_updEntry _ _ _ _ he with ⟨hel, _⟩ | heq
    · exact hinv.idsUsed e hel
    · subst heq
      exact hinv.idsUsed (key, p) hkp
  · rw [hp, updEntry_map_snd SProp.id st.sess.props key { p with phase := ph } ?_]
    · exact hinv.idsNodup
    · intro e hel hek
      have hmem' : (key, e.2) ∈ st.sess.props := by
        have h0 : (e.1, e.2) ∈ st.sess.props := by rw [Prod.mk.eta]; exact hel
        rwa [hek] at h0
      have hl2 := alookup_of_mem_nodup _ hinv.keysNodup key e.2 hmem'
      rw [h] at hl2
      injection hl2 with he2
      show SProp.id e.2 = SProp.id { p with phase := ph }
      rw [← he2]

/-- Invariant transport for deleting the entry under `key` when the stored
proposal is not Running (keep-alive eviction after `Cancel`). -/
theorem inv_removeEntry (st st' : MState) (key : Nat)
    (hinv : Inv st)
    (hnr : ∀ p, alookup st.sess.props key = some p → p.phase ≠ Phase.running)
    (hp : st'.sess.props = removeEntry st.sess.props key)
    (hpi : st'.primIndex = st.primIndex)
    (hsi : st'.sessIndex = st.sessIndex)
    (ht : st'.timers = st.timers)
    (her : st'.expireRef = st.expireRef)
    (hlu : st'.sess.lastUpdated = st.sess.lastUpdated)
    (hto : st'.sess.timeout = st.sess.timeout)
    (htm : st'.time = st.time)
    (hu : st'.usedIds = st.usedIds) : Inv st' := by
  have hsub := removeEntry_sublist st.sess.props key
  refine ⟨?_, ?_, ?_, ?_, ?_, ?_, ?_, ?_, ?_⟩
  · rw [hp]
    exact hinv.keysNodup.sublist (hsub.map Prod.fst)
  · rw [hp]
    intro e he
    exact hinv.keySeq e ((mem_removeEntry _ _ _).mp he).1
  · rw [hp]
    intro e he
    exact hinv.outShape e ((mem_removeEntry _ _ _).mp he).1
  · rw [hsi, hpi]; exact hinv.idxEq
  · rw [hpi, hp]
    intro pid'
    constructor
    · intro hmem
      obtain ⟨e, hel, hide, hrune, hprime⟩ := (hinv.prim pid').mp hmem
      have hkeyne : e.1 ≠ key := by
        intro hkey
        have hmem' : (key, e.2) ∈ st.sess.props := by
          have h0 : (e.1, e.2) ∈ st.sess.props := by rw [Prod.mk.eta]; exact hel
          rwa [hkey] at h0
        exact hnr e.2 (alookup_of_mem_nodup _ hinv.keysNodup key e.2 hmem') hrune
      exact ⟨e, (mem_removeEntry _ _ _).mpr ⟨hel, hkeyne⟩, hide, hrune, hprime⟩
    · rintro ⟨e, he, hide, hrune, hprime⟩
      exact (hinv.prim pid').mpr ⟨e, ((mem_removeEntry _ _ _).mp he).1, hide, hrune, hprime⟩
  · rw [ht, her, hlu, hto]; exact hinv.expSync
  · rw [hlu, htm]; exact hinv.luLe
  · rw [hp, hu]
    intro e he
    exact hinv.idsUsed e ((mem_removeEntry _ _ _).mp he).1
  · rw [hp]
    exact hinv.idsNodup.sublist (hsub.map fun e => e.2.id)

/-- `OutShape` is preserved by `ack`. -/
theorem outShape_ack (p : SProp) (v : Nat) (hs : OutShape p) :
    OutShape { p with outputs := p.outputs.dropWhile fun o => decide (o.seqNum ≤ v) } := by
  obtain ⟨a, b, hab, hb, hdisj, hmap⟩ := hs
  refine ⟨min b (max a v), b, by omega, hb, hdisj, ?_⟩
  show (p.outputs.dropWhile fun o => decide (o.seqNum ≤ v)).map SPOutput.seqNum = _
  have hcomp : (fun o : SPOutput => decide (o.seqNum ≤ v)) =
      (fun x => decide (x ≤ v)) ∘ SPOutput.seqNum := rfl
  rw [hcomp, ← List.dropWhile_map, hmap, dropWhile_range']
  by_cases hvb : max a v ≤ b
  · have h1 : max (a + 1) (v + 1) = min b (max a v) + 1 := by omega
    rw [h1]
    congr 1
    omega
  · have h2 : b - a - (max (a + 1) (v + 1) - (a + 1)) = 0 := by omega
    have h3 : b - min b (max a v) = 0 := by omega
    rw [h2, h3]
    simp

theorem inv_wrapOut (st : MState) (key payload : Nat) (hinv : Inv st) :
    Inv (sessionProposal.wrapOut st key payload) := by
  rcases h : alookup st.sess.props key with _ | p
  · rw [wrapOut_none st key payload h]; exact hinv
  · have hkp := alookup_mem _ _ _ h
    obtain ⟨a, b, hab, hb, hdisj, hmap⟩ := hinv.outShape (key, p) hkp
    have hb' : b ≤ p.outputSeqNum := hb
    have hdisj' : p.phase = Phase.complete ∨ b = p.outputSeqNum := hdisj
    have hmap' : p.outputs.map SPOutput.seqNum = List.range' (a + 1) (b - a) := hmap
    by_cases hc : p.phase = Phase.complete
    · rw [wrapOut_complete st key payload p h hc]
      refine inv_entryUpdate st _ key p
        { p with outputSeqNum := p.outputSeqNum + 1 } hinv h rfl rfl rfl
        ⟨a, b, hab, ?_, ?_, hmap'⟩ rfl rfl rfl rfl rfl rfl rfl rfl rfl
      · show b ≤ p.outputSeqNum + 1
        omega
      · exact Or.inl hc
    · rw [wrapOut_char st key payload p h hc]
      have hbe : b = p.outputSeqNum := hdisj'.resolve_left hc
      refine inv_entryUpdate st _ key p
        { p with outputSeqNum := p.outputSeqNum + 1,
                 outputs := p.outputs ++
                   [(⟨p.outputSeqNum + 1,
                      sessionProposal.wrapBody p.input.body payload⟩ : SPOutput)] }
        hinv h rfl rfl rfl
        ⟨a, b + 1, by omega, ?_, Or.inr ?_, ?_⟩ rfl rfl rfl rfl rfl rfl rfl rfl rfl
      · show b + 1 ≤ p.outputSeqNum + 1
        omega
      · show b + 1 = p.outputSeqNum + 1
        omega
      · show (p.outputs ++
            [(⟨p.outputSeqNum + 1,
               sessionProposal.wrapBody p.input.body payload⟩ : SPOutput)]).map
            SPOutput.seqNum = List.range' (a + 1) (b + 1 - a)
        rw [List.map_append, hmap']
        show List.range' (a + 1) (b - a) ++ [p.outputSeqNum + 1] = _
        rw [← hbe]
        exact range'_snoc a b hab

theorem inv_error (st : MState) (key status msg : Nat) (hinv : Inv st) :
    Inv (sessionProposal.Error st key status msg) := by
  rcases h : alookup st.sess.props key with _ | p
  · rw [error_none st key status msg h]; exact hinv
  · have hkp := alookup_mem _ _ _ h
    by_cases hc : p.phase = Phase.complete
    · rw [error_complete st key status msg p h hc]; exact hinv
    · rw [error_char st key status msg p h hc]
      obtain ⟨a, b, hab, hb, hdisj, hmap⟩ := hinv.outShape (key, p) hkp
      have hb' : b ≤ p.outputSeqNum := hb
      have hdisj' : p.phase = Phase.complete ∨ b = p.outputSeqNum := hdisj
      have hmap' : p.outputs.map SPOutput.seqNum = List.range' (a + 1) (b - a) := hmap
      have hbe : b = p.outputSeqNum := hdisj'.resolve_left hc
      refine inv_entryUpdate st _ key p
        { p with outputSeqNum := p.outputSeqNum + 1,
                 outputs := p.outputs ++
                   [(⟨p.outputSeqNum + 1, OutBody.failure status msg⟩ : SPOutput)] }
        hinv h rfl rfl rfl
        ⟨a, b + 1, by omega, ?_, Or.inr ?_, ?_⟩ rfl rfl rfl rfl rfl rfl rfl rfl rfl
      · show b + 1 ≤ p.outputSeqNum + 1
        omega
      · show b + 1 = p.outputSeqNum + 1
        omega
      · show (p.outputs ++
            [(⟨p.outputSeqNum + 1, OutBody.failure status msg⟩ : SPOutput)]).map
            SPOutput.seqNum = List.range' (a + 1) (b + 1 - a)
        rw [List.map_append, hmap']
        show List.range' (a + 1) (b - a) ++ [p.outputSeqNum + 1] = _
        rw [← hbe]
        exact range'_snoc a b hab

theorem inv_ack (st : MState) (key v : Nat) (hinv : Inv st) :
    Inv (sessionProposal.ack st key v) := by
  rcases h : alookup st.sess.props key with _ | p
  · rw [ack_none st key v h]; exact hinv
  · rw [ack_char st key v p h]
    exact inv_entryUpdate st _ key p
      { p with outputs := p.outputs.dropWhile fun o => decide (o.seqNum ≤ v) }
      hinv h rfl rfl rfl
      (outShape_ack p v (hinv.outShape (key, p) (alookup_mem _ _ _ h)))
      rfl rfl rfl rfl rfl rfl rfl rfl rfl

theorem inv_close (st : MState) (key : Nat) (hinv : Inv st) :
    Inv (sessionProposal.Close st key) := by
  rcases h : alookup st.sess.props key with _ | p
  · rw [close_none st key h]; exact hinv
  · by_cases hr : p.phase = Phase.running
    · rw [close_char st key p h hr]
      exact inv_finish st _ key p .complete hinv h hr (Or.inl rfl)
        rfl rfl rfl rfl rfl rfl rfl rfl rfl
    · rw [close_noop st key p h hr]; exact hinv

theorem inv_cancel (st : MState) (key : Nat) (hinv : Inv st) :
    Inv (sessionProposal.Cancel st key) := by
  rcases h : alookup st.sess.props key with _ | p
  · rw [cancel_none st key h]; exact hinv
  · by_cases hr : p.phase = Phase.running
    · rw [cancel_char st key p h hr]
      exact inv_finish st _ key p .canceled hinv h hr (Or.inr rfl)
        rfl rfl rfl rfl rfl rfl rfl rfl rfl
    · rw [cancel_noop st key p h hr]; exact hinv

theorem inv_replay (st : MState) (h key : Nat) (hinv : Inv st) :
    Inv (sessionProposal.replay st h key) := by
  rcases h1 : alookup st.sess.props key with _ | p
  · rw [replay_none st h key h1]; exact hinv
  · rw [replay_char st h key p h1]
    exact inv_entryUpdate st _ key p { p with parent := some h } hinv h1 rfl rfl rfl
      (hinv.outShape (key, p) (alookup_mem _ _ _ h1))
      rfl rfl rfl rfl rfl rfl rfl rfl rfl

theorem inv_runOp (key : Nat) (st : MState) (op : AOp) (hinv : Inv st) :
    Inv (runOp key st op) := by
  cases op with
  | outSelf payload => exact inv_wrapOut st key payload hinv
  | errSelf s m => exact inv_error st key s m hinv
  | closeSelf => exact inv_close st key hinv
  | cancelSelf => exact inv_cancel st key hinv
  | outTo pid payload =>
    simp only [runOp]
    rcases hf : findByPid st pid with _ | k
    · exact hinv
    · exact inv_wrapOut st k payload hinv
  | errTo pid s m =>
    simp only [runOp]
    rcases hf : findByPid st pid with _ | k
    · exact hinv
    · exact inv_error st k s m hinv
  | closeTo pid =>
    simp only [runOp]
    rcases hf : findByPid st pid with _ | k
    · exact hinv
    · exact inv_close st k hinv
  | cancelTo pid =>
    simp only [runOp]
    rcases hf : findByPid st pid with _ | k
    · exact hinv
    · exact inv_cancel st k hinv

theorem inv_runScript (key : Nat) (ops : List AOp) :
    ∀ st : MState, Inv st → Inv (runScript key st ops) := by
  induction ops with
  | nil => exact fun st hinv => hinv
  | cons op rest ih =>
    intro st hinv
    exact ih (runOp key st op) (inv_runOp key st op hinv)

/-- Invariant transport for `sessionProposal.execute`: a fresh proposal is
inserted under its sequence number with a fresh id; primitive-typed
proposals join both indexes; an optional deadline timer is scheduled. -/
theorem inv_execute_general (st st' : MState) (key pid : Nat) (pnew : SProp)
    (hinv : Inv st) (hnone : alookup st.sess.props key = none)
    (hUsed : pid ∈ st.usedIds) (hfresh : ∀ e ∈ st.sess.props, e.2.id ≠ pid)
    (hpid : pnew.id = pid) (hseq : pnew.input.seqNum = key)
    (hout : pnew.outputs = []) (hcnt : pnew.outputSeqNum = 0)
    (hp : st'.sess.props = st.sess.props ++ [(key, pnew)])
    (hidx : (st'.primIndex = st.primIndex ++ [pid] ∧
              st'.sessIndex = st.sessIndex ++ [pid] ∧
              pnew.phase = Phase.running ∧ primBody pnew.input.body = true) ∨
            (st'.primIndex = st.primIndex ∧ st'.sessIndex = st.sessIndex ∧
              primBody pnew.input.body = false))
    (ht : st'.timers = st.timers ∨
          ∃ d, st'.timers = st.timers ++ [⟨st.nextTid, d, .deadline key pid, true⟩])
    (her : st'.expireRef = st.expireRef)
    (hlu : st'.sess.lastUpdated = st.sess.lastUpdated)
    (hto : st'.sess.timeout = st.sess.timeout)
    (htm : st'.time = st.time)
    (hu : st'.usedIds = st.usedIds) : Inv st' := by
  have hkn : key ∉ st.sess.props.map Prod.fst := by
    rw [mem_keys_iff_alookup, hnone]
    simp
  have hidn : pid ∉ st.sess.props.map fun e => e.2.id := by
    intro hm
    obtain ⟨e, hel, he⟩ := List.mem_map.mp hm
    exact hfresh e hel he
  refine ⟨?_, ?_, ?_, ?_, ?_, ?_, ?_, ?_, ?_⟩
  · rw [hp, List.map_append]
    simp only [List.map_cons, List.map_nil]
    rw [List.nodup_append]
    exact ⟨hinv.keysNodup, List.nodup_singleton key, by simpa using hkn⟩
  · rw [hp]
    intro e he
    rcases List.mem_append.mp he with hel | hnew
    · exact hinv.keySeq e hel
    · rw [List.mem_singleton.mp hnew]
      exact hseq
  · rw [hp]
    intro e he
    rcases List.mem_append.mp he with hel | hnew
    · exact hinv.outShape e hel
    · rw [List.mem_singleton.mp hnew]
      exact ⟨0, 0, Nat.le_refl 0, by rw [hcnt], Or.inr (by rw [hcnt]), by rw [hout]; rfl⟩
  · rcases hidx with ⟨h1, h2, _, _⟩ | ⟨h1, h2, _⟩ <;> rw [h1, h2, hinv.idxEq]
  · intro pid'
    rcases hidx with ⟨h1, _, hrun, hprim⟩ | ⟨h1, _, hprim⟩
    · rw [h1, hp]
      constructor
      · intro hmem
        rcases List.mem_append.mp hmem with hold | hnew
        · obtain ⟨e, hel, hide, hrune, hprime⟩ := (hinv.prim pid').mp hold
          exact ⟨e, List.mem_append_left _ hel, hide, hrune, hprime⟩
        · refine ⟨(key, pnew), List.mem_append_right _ (List.mem_singleton_self _), ?_, hrun, hprim⟩
          show pnew.id = pid'
          rw [hpid, List.mem_singleton.mp hnew]
      · rintro ⟨e, he, hide, hrune, hprime⟩
        rcases List.mem_append.mp he with hel | hnew
        · exact List.mem_append_left _ ((hinv.prim pid').mpr ⟨e, hel, hide, hrune, hprime⟩)
        · apply List.mem_append_right
          rw [List.mem_singleton.mp hnew] at hide
          rw [List.mem_singleton]
          rw [← hide, hpid]
    · rw [h1, hp]
      constructor
      · intro hmem
        obtain ⟨e, hel, hide, hrune, hprime⟩ := (hinv.prim pid').mp hmem
        exact ⟨e, List.mem_append_left _ hel, hide, hrune, hprime⟩
      · rintro ⟨e, he, hide, hrune, hprime⟩
        rcases List.mem_append.mp he with hel | hnew
        · exact (hinv.prim pid').mpr ⟨e, hel, hide, hrune, hprime⟩
        · rw [List.mem_singleton.mp hnew] at hprime
          rw [hprim] at hprime
          cases hprime
  · rw [her, hlu, hto]
    rcases ht with h1 | ⟨d, h1⟩ <;> rw [h1]
    · exact hinv.expSync
    · intro tr htr hk halive
      rcases List.mem_append.mp htr with hold | hnew
      · exact hinv.expSync tr hold hk halive
      · rw [List.mem_singleton.mp hnew] at hk
        cases hk
  · rw [hlu, htm]; exact hinv.luLe
  · rw [hp, hu]
    intro e he
    rcases List.mem_append.mp he with hel | hnew
    · exact hinv.idsUsed e hel
    · rw [List.mem_singleton.mp hnew]
      show pnew.id ∈ st.usedIds
      rw [hpid]; exact hUsed
  · rw [hp, List.map_append]
    simp only [List.map_cons, List.map_nil]
    rw [List.nodup_append]
    refine ⟨hinv.idsNodup, List.nodup_singleton _, ?_⟩
    simp only [List.disjoint_singleton]
    show pnew.id ∉ _
    rw [hpid]
    simpa using hidn

/-! ### Step characterizations for session close, expiration and timers -/

theorem closeSess_char (st : MState) (h : Nat) :
    managedSession.closeSess st h =
      { st with
        registered := false,
        sess.state := .closed,
        watcherLog := st.watcherLog ++ [.sessClosed],
        timers := cancelOpt st.timers st.expireRef,
        emissions := st.emissions ++ [⟨h, .unitOut⟩, ⟨h, .closedEm⟩] } := by
  unfold managedSession.closeSess
  rcases hr : st.expireRef with _ | t <;> simp [cancelOpt, hr]

theorem expire_char (st : MState) :
    managedSession.expire st =
      { st with
        registered := false,
        sess.state := .closed,
        watcherLog := st.watcherLog ++ [.sessClosed] } := rfl

theorem fire_none (st : MState) (tid : Nat)
    (hf : st.timers.find? (fun tr => tr.tid == tid) = none) :
    stepEv st (.fire tid) = st := by
  simp only [stepEv]
  rw [hf]

theorem fire_dead (st : MState) (tid : Nat) (tr : TimerRec)
    (hf : st.timers.find? (fun x => x.tid == tid) = some tr)
    (ha : (tr.alive && decide (tr.fireAt ≤ st.time)) = false) :
    stepEv st (.fire tid) = st := by
  simp only [stepEv]
  rw [hf]
  dsimp only
  rw [if_neg (by rw [ha]; exact Bool.false_ne_true)]

theorem fire_expire (st : MState) (tid : Nat) (tr : TimerRec)
    (hf : st.timers.find? (fun x => x.tid == tid) = some tr)
    (halive : tr.alive = true) (hdue : tr.fireAt ≤ st.time)
    (hk : tr.kind = .expire) :
    stepEv st (.fire tid) =
      { st with
        timers := cancelTimer st.timers tid,
        registered := false,
        sess.state := .closed,
        watcherLog := st.watcherLog ++ [.sessClosed] } := by
  simp only [stepEv]
  rw [hf]
  dsimp only
  rw [if_pos (by rw [halive]; simpa using hdue), hk]
  rfl

theorem fire_deadline_cancel (st : MState) (tid : Nat) (tr : TimerRec)
    (key pid : Nat) (p : SProp)
    (hf : st.timers.find? (fun x => x.tid == tid) = some tr)
    (halive : tr.alive = true) (hdue : tr.fireAt ≤ st.time)
    (hk : tr.kind = .deadline key pid)
    (hl : alookup st.sess.props key = some p)
    (hid : p.id = pid) (hph : p.phase = Phase.running) :
    stepEv st (.fire tid) =
      { st with
        timers := cancelOpt (cancelTimer st.timers tid) p.timerRef,
        sess.props := updEntry st.sess.props key { p with phase := .canceled },
        primIndex := removeId st.primIndex p.id,
        sessIndex := removeId st.sessIndex p.id,
        watcherLog := st.watcherLog ++ [.prop p.id .canceled],
        emissions := st.emissions ++ emOpt p.parent .canceledEm } := by
  simp only [stepEv]
  rw [hf]
  dsimp only
  rw [if_pos (by rw [halive]; simpa using hdue), hk]
  dsimp only
  have hl1 : alookup ({ st with timers := cancelTimer st.timers tid } : MState).sess.props
      key = some p := hl
  rw [hl1]
  dsimp only
  rw [if_pos hid]
  rw [cancel_char _ key p hl1 hph]

theorem inv_executeCore (st : MState) (h pid : Nat) (inp : SPInput)
    (hinv : Inv st) (hnone : alookup st.sess.props inp.seqNum = none)
    (hUsed : pid ∈ st.usedIds) (hfresh : ∀ e ∈ st.sess.props, e.2.id ≠ pid) :
    Inv (managedSession.executeCore st h pid inp) := by
  unfold managedSession.executeCore
  rcases hd : inp.deadline with _ | d <;> rcases hb : inp.body with ⟨x, y⟩ | x | x <;>
    dsimp only
  · exact inv_execute_general st _ inp.seqNum pid _ hinv hnone hUsed hfresh rfl rfl rfl rfl
      rfl (Or.inl ⟨rfl, rfl, rfl, by show primBody inp.body = true; rw [hb]; rfl⟩)
      (Or.inl rfl) rfl rfl rfl rfl rfl
  · exact inv_execute_general st _ inp.seqNum pid _ hinv hnone hUsed hfresh rfl rfl rfl rfl
      rfl (Or.inr ⟨rfl, rfl, by show primBody inp.body = false; rw [hb]; rfl⟩)
      (Or.inl rfl) rfl rfl rfl rfl rfl
  · exact inv_execute_general st _ inp.seqNum pid _ hinv hnone hUsed hfresh rfl rfl rfl rfl
      rfl (Or.inr ⟨rfl, rfl, by show primBody inp.body = false; rw [hb]; rfl⟩)
      (Or.inl rfl) rfl rfl rfl rfl rfl
  · exact inv_execute_general st _ inp.seqNum pid _ hinv hnone hUsed hfresh rfl rfl rfl rfl
      rfl (Or.inl ⟨rfl, rfl, rfl, by show primBody inp.body = true; rw [hb]; rfl⟩)
      (Or.inr ⟨d, rfl⟩) rfl rfl rfl rfl rfl
  · exact inv_execute_general st _ inp.seqNum pid _ hinv hnone hUsed hfresh rfl rfl rfl rfl
      rfl (Or.inr ⟨rfl, rfl, by show primBody inp.body = false; rw [hb]; rfl⟩)
      (Or.inr ⟨d, rfl⟩) rfl rfl rfl rfl rfl
  · exact inv_execute_general st _ inp.seqNum pid _ hinv hnone hUsed hfresh rfl rfl rfl rfl
      rfl (Or.inr ⟨rfl, rfl, by show primBody inp.body = false; rw [hb]; rfl⟩)
      (Or.inr ⟨d, rfl⟩) rfl rfl rfl rfl rfl

theorem inv_propose (st : MState) (h pid : Nat) (inp : SPInput) (script : List AOp)
    (hinv : Inv st) (hUsed : pid ∈ st.usedIds)
    (hfresh : ∀ e ∈ st.sess.props, e.2.id ≠ pid) :
    Inv (managedSession.propose st h pid inp script) := by
  rcases hp : alookup st.sess.props inp.seqNum with _ | p
  · rw [propose_execute st h pid inp script hp]
    exact inv_runScript _ script _ (inv_executeCore st h pid inp hinv hp hUsed hfresh)
  · rw [propose_replay st h pid inp script p hp]
    exact inv_replay st h inp.seqNum hinv

theorem inv_kaStep (test : List Nat → Bool) (lastIn : Nat) (acks : List (Nat × Nat))
    (st : MState) (key : Nat) (hinv : Inv st) :
    Inv (managedSession.kaStep test lastIn acks st key) := by
  unfold managedSession.kaStep
  rcases h : alookup st.sess.props key with _ | p
  · exact hinv
  · dsimp only
    have hk' : p.input.seqNum = key := hinv.keySeq (key, p) (alookup_mem _ _ _ h)
    rw [hk']
    by_cases h2 : lastIn < key
    · rw [if_pos h2]; exact hinv
    · rw [if_neg h2]
      by_cases h3 : test (be8 key) = false
      · rw [if_pos h3]
        have hinv1 : Inv (sessionProposal.Cancel st key) := inv_cancel st key hinv
        refine inv_removeEntry (sessionProposal.Cancel st key) _ key hinv1 ?_
          rfl rfl rfl rfl rfl rfl rfl rfl rfl
        intro q hq
        by_cases hr : p.phase = Phase.running
        · rw [cancel_char st key p h hr] at hq
          have hq' : alookup (updEntry st.sess.props key { p with phase := Phase.canceled })
              key = some q := hq
          rw [alookup_updEntry_eq, h] at hq'
          injection hq' with hq2
          rw [← hq2]
          intro hcon
          cases hcon
        · rw [cancel_noop st key p h hr] at hq
          rw [h] at hq
          injection hq with hq2
          rw [← hq2]
          exact hr
      · rw [if_neg h3]
        rcases h4 : alookup acks key with _ | v
        · exact hinv
        · exact inv_ack st key v hinv

theorem inv_kaFold (test : List Nat → Bool) (lastIn : Nat) (acks : List (Nat × Nat))
    (ks : List Nat) :
    ∀ st : MState, Inv st →
      Inv (ks.foldl (managedSession.kaStep test lastIn acks) st) := by
  induction ks with
  | nil => exact fun st hinv => hinv
  | cons k rest ih =>
    intro st hinv
    exact ih _ (inv_kaStep test lastIn acks st k hinv)

theorem scheduleExpire_char (st : MState) :
    managedSession.scheduleExpireTimer st =
      { st with
        timers := cancelOpt st.timers st.expireRef ++
          [⟨st.nextTid, st.sess.lastUpdated + st.sess.timeout, .expire, true⟩],
        expireRef := some st.nextTid,
        nextTid := st.nextTid + 1 } := by
  unfold managedSession.scheduleExpireTimer
  rcases hr : st.expireRef with _ | t <;> simp [cancelOpt, hr]

/-- Invariant transport for the keep-alive tail: `lastUpdated` is refreshed
to the current logical time and the expire timer is rescheduled. -/
theorem inv_refresh (st st' : MState) (hinv : Inv st)
    (hp : st'.sess.props = st.sess.props)
    (hpi : st'.primIndex = st.primIndex)
    (hsi : st'.sessIndex = st.sessIndex)
    (ht : st'.timers = cancelOpt st.timers st.expireRef ++
      [⟨st.nextTid, st.time + st.sess.timeout, .expire, true⟩])
    (her : st'.expireRef = some st.nextTid)
    (hlu : st'.sess.lastUpdated = st.time)
    (hto : st'.sess.timeout = st.sess.timeout)
    (htm : st'.time = st.time)
    (hu : st'.usedIds = st.usedIds) : Inv st' := by
  refine ⟨?_, ?_, ?_, ?_, ?_, ?_, ?_, ?_, ?_⟩
  · rw [hp]; exact hinv.keysNodup
  · rw [hp]; exact hinv.keySeq
  · rw [hp]; exact hinv.outShape
  · rw [hsi, hpi]; exact hinv.idxEq
  · rw [hpi, hp]; exact hinv.prim
  · rw [ht, her, hlu, hto]
    intro tr htr hk halive
    rcases List.mem_append.mp htr with hold | hnew
    · have hmem := alive_mem_cancelOpt _ _ _ hold halive
      obtain ⟨href, _⟩ := hinv.expSync tr hmem hk halive
      rw [href] at hold
      have hdead := not_alive_cancelTimer_self st.timers tr.tid tr hold rfl
      rw [hdead] at halive
      cases halive
    · rw [List.mem_singleton.mp hnew]
      exact ⟨rfl, rfl⟩
  · rw [hlu, htm]
  · rw [hp, hu]; exact hinv.idsUsed
  · rw [hp]; exact hinv.idsNodup

theorem inv_keepAlive (st : MState) (h : Nat) (test : List Nat → Bool)
    (lastIn : Nat) (acks : List (Nat × Nat)) (hinv : Inv st) :
    Inv (managedSession.keepAlive st h test lastIn acks) := by
  unfold managedSession.keepAlive
  dsimp only
  have hinv1 : Inv ((st.sess.props.map Prod.fst).foldl
      (managedSession.kaStep test lastIn acks) st) :=
    inv_kaFold test lastIn acks _ st hinv
  rw [scheduleExpire_char]
  exact inv_refresh _ _ hinv1 rfl rfl rfl rfl rfl rfl rfl rfl rfl

theorem inv_step (st : MState) (e : Ev) (hinv : Inv st) (hok : evOK st e) :
    Inv (stepEv st e) := by
  cases e with
  | propose h pid inp script =>
    have hfresh : ∀ e' ∈ st.sess.props, e'.2.id ≠ pid := fun e' he' hcon =>
      hok (hcon ▸ hinv.idsUsed e' he')
    by_cases hreg : st.registered = true
    · rw [stepEv_propose_reg st h pid inp script hreg]
      have hinv0 : Inv { st with usedIds := st.usedIds ++ [pid] } :=
        ⟨hinv.keysNodup, hinv.keySeq, hinv.outShape, hinv.idxEq, hinv.prim,
         hinv.expSync, hinv.luLe,
         fun e' he' => List.mem_append_left _ (hinv.idsUsed e' he'), hinv.idsNodup⟩
      exact inv_propose _ h pid inp script hinv0
        (List.mem_append_right _ (List.mem_singleton_self _)) hfresh
    · simp only [stepEv, hreg, if_false]
      exact ⟨hinv.keysNodup, hinv.keySeq, hinv.outShape, hinv.idxEq, hinv.prim,
        hinv.expSync, hinv.luLe,
        fun e' he' => List.mem_append_left _ (hinv.idsUsed e' he'), hinv.idsNodup⟩
  | keepAlive h test lastIn acks =>
    by_cases hreg : st.registered = true
    · have hstep : stepEv st (.keepAlive h test lastIn acks) =
          managedSession.keepAlive st h test lastIn acks := by
        simp [stepEv, hreg]
      rw [hstep]
      exact inv_keepAlive st h test lastIn acks hinv
    · simp only [stepEv, hreg, if_false]
      exact inv_fields st _ hinv rfl rfl rfl rfl rfl rfl rfl rfl rfl
  | closeSession h =>
    by_cases hreg : st.registered = true
    · have hstep : stepEv st (.closeSession h) = managedSession.closeSess st h := by
        simp [stepEv, hreg]
      rw [hstep, closeSess_char]
      refine ⟨hinv.keysNodup, hinv.keySeq, hinv.outShape, hinv.idxEq, hinv.prim,
        ?_, hinv.luLe, hinv.idsUsed, hinv.idsNodup⟩
      intro tr htr hk halive
      have hmem := alive_mem_cancelOpt _ _ _ htr halive
      obtain ⟨href, hfa⟩ := hinv.expSync tr hmem hk halive
      have htr' : tr ∈ cancelOpt st.timers st.expireRef := htr
      rw [href] at htr'
      have hdead := not_alive_cancelTimer_self st.timers tr.tid tr htr' rfl
      rw [hdead] at halive
      cases halive
    · simp only [stepEv, hreg, if_false]
      exact inv_fields st _ hinv rfl rfl rfl rfl rfl rfl rfl rfl rfl
  | tick t =>
    exact ⟨hinv.keysNodup, hinv.keySeq, hinv.outShape, hinv.idxEq, hinv.prim,
      hinv.expSync, Nat.le_trans hinv.luLe (Nat.le_max_left _ _),
      hinv.idsUsed, hinv.idsNodup⟩
  | fire tid =>
    simp only [stepEv]
    rcases hf : st.timers.find? (fun tr => tr.tid == tid) with _ | tr
    · rw [hf]
      exact hinv
    · rw [hf]
      dsimp only
      by_cases ha : (tr.alive && decide (tr.fireAt ≤ st.time)) = true
      · rw [if_pos ha]
        have hinv1 : Inv { st with timers := cancelTimer st.timers tid } := by
          refine ⟨hinv.keysNodup, hinv.keySeq, hinv.outShape, hinv.idxEq, hinv.prim,
            ?_, hinv.luLe, hinv.idsUsed, hinv.idsNodup⟩
          intro tr' htr' hk halive
          exact hinv.expSync tr' (alive_mem_cancelTimer _ _ _ htr' halive) hk halive
        rcases hk : tr.kind with _ | ⟨key, pid⟩
        · exact ⟨hinv1.keysNodup, hinv1.keySeq, hinv1.outShape, hinv1.idxEq,
            hinv1.prim, hinv1.expSync, hinv1.luLe, hinv1.idsUsed, hinv1.idsNodup⟩
        · dsimp only
          rcases hl : alookup st.sess.props key with _ | p
          · exact hinv1
          · dsimp only
            by_cases hid : p.id = pid
            · rw [if_pos hid]
              exact inv_cancel _ key hinv1
            · rw [if_neg hid]
              exact hinv1
      · rw [if_neg ha]
        exact hinv

theorem openState_inv (h pid timeoutv t0 : Nat) : Inv (openState h pid timeoutv t0) := by
  refine ⟨?_, ?_, ?_, rfl, ?_, ?_, Nat.le_refl t0, ?_, ?_⟩
  · exact List.nodup_nil
  · intro e he; cases he
  · intro e he; cases he
  · intro pid'
    constructor
    · intro hmem; cases hmem
    · rintro ⟨e, he, _⟩; cases he
  · intro tr htr hk halive
    rw [List.mem_singleton.mp htr]
    exact ⟨rfl, rfl⟩
  · intro e he; cases he
  · exact List.nodup_nil

/-- Every reachable state satisfies the master invariant. -/
theorem reach_inv (st : MState) (h : Reach st) : Inv st := by
  induction h with
  | init h pid timeoutv t0 => exact openState_inv h pid timeoutv t0
  | step e hr hok ih => exact inv_step _ e ih hok

/-- C6 (amended): After `CloseSession` the session is deregistered,
transitions to Closed, fires its watchers and cancels its expire timer (a
fired expire timer is already spent); but `sessionProposals` and the
manager's global primitive-proposal index are left untouched, so Running
proposals and their deadline timers survive a session close. -/
theorem c6_session_close_retains_proposals
    (st : MState) (_hreach : Reach st) (hreg : st.registered = true)
    (h tid : Nat) :
    (stepEv st (.closeSession h) =
      { st with
        registered := false,
        sess.state := .closed,
        watcherLog := st.watcherLog ++ [.sessClosed],
        timers := cancelOpt st.timers st.expireRef,
        emissions := st.emissions ++ [⟨h, .unitOut⟩, ⟨h, .closedEm⟩] }) ∧
    (∀ tr, st.timers.find? (fun x => x.tid == tid) = some tr → tr.alive = true →
      tr.fireAt ≤ st.time → tr.kind = .expire →
      stepEv st (.fire tid) =
        { st with
          timers := cancelTimer st.timers tid,
          registered := false,
          sess.state := .closed,
          watcherLog := st.watcherLog ++ [.sessClosed] }) := by
  constructor
  · simp only [stepEv, hreg, if_true]
    exact closeSess_char st h
  · intro tr hf halive hdue hk
    exact fire_expire st tid tr hf halive hdue hk

/-- Input with a deadline used by the C6 counterexample. -/
def inpC6 : SPInput := ⟨1, 1, some 100, .proposal 1 0⟩

/-- Open a session, execute a primitive proposal with a deadline (the
adapter leaves it running), then close the session. -/
def stC6 : MState :=
  stepEv (stepEv (openState 9 1 60 0) (.propose 8 2 inpC6 [])) (.closeSession 7)

/-- Counterexample to C6 as stated: after `CloseSession` the session is
Closed, yet it still holds the Running proposal under sequence number 1,
the proposal's id 2 is still in the global primitive-proposal index, and
its deadline timer is still scheduled and alive. -/
theorem c6_counterexample :
    stC6.sess.state = SessState.closed ∧
    stC6.primIndex = [2] ∧
    (alookup stC6.sess.props 1).map (fun p => p.phase) = some Phase.running ∧
    (⟨1, 100, .deadline 1 2, true⟩ : TimerRec) ∈ stC6.timers := by decide

/-- Open a session and run one primitive proposal with a deadline; a
reachable, registered state used to witness C6. -/
def c6Pre : MState := stepEv (openState 9 1 60 0) (.propose 8 2 inpC6 [])

theorem c6_witness :
    (stepEv c6Pre (.closeSession 7) =
      { c6Pre with
        registered := false,
        sess.state := .closed,
        watcherLog := c6Pre.watcherLog ++ [.sessClosed],
        timers := cancelOpt c6Pre.timers c6Pre.expireRef,
        emissions := c6Pre.emissions ++ [⟨7, .unitOut⟩, ⟨7, .closedEm⟩] }) ∧
    (∀ tr, c6Pre.timers.find? (fun x => x.tid == 0) = some tr → tr.alive = true →
      tr.fireAt ≤ c6Pre.time → tr.kind = .expire →
      stepEv c6Pre (.fire 0) =
        { c6Pre with
          timers := cancelTimer c6Pre.timers 0,
          registered := false,
          sess.state := .closed,
          watcherLog := c6Pre.watcherLog ++ [.sessClosed] }) :=
  c6_session_close_retains_proposals c6Pre
    (Reach.step (.propose 8 2 inpC6 []) (Reach.init 9 1 60 0)
      (show (2 : Nat) ∉ (openState 9 1 60 0).usedIds by decide))
    (by decide) 7 0

/-- C5 (amended): In every reachable state the manager's global
primitive-proposal index (and the session's mirror of it) contains an id
if and only if `sessionProposals` holds an entry with that id whose phase
is Running and whose input is a primitive proposal; `sessionProposals`
itself, however, retains Complete and Canceled entries (see the
counterexample), so membership in `session_proposals` is NOT equivalent to
phase Running. -/
theorem c5_index_tracks_running (st : MState) (hreach : Reach st) :
    (∀ pid, pid ∈ st.primIndex ↔ ∃ e ∈ st.sess.props, e.2.id = pid ∧
        e.2.phase = Phase.running ∧ primBody e.2.input.body = true) ∧
    st.sessIndex = st.primIndex := by
  have hinv := reach_inv st hreach
  exact ⟨hinv.prim, hinv.idxEq⟩

/-- Input used by the C5 counterexample. -/
def inpC5 : SPInput := ⟨1, 1, none, .proposal 1 0⟩

/-- Open a session and execute a primitive proposal whose adapter closes
(completes) it synchronously. -/
def stC5 : MState :=
  stepEv (openState 9 1 60 0) (.propose 8 2 inpC5 [.closeSelf])

/-- Counterexample to C5 as stated: the proposal completed (phase
Complete, id dropped from the index), yet `sessionProposals` still holds
its entry under sequence number 1. -/
theorem c5_counterexample :
    (alookup stC5.sess.props 1).map (fun p => p.phase) = some Phase.complete ∧
    stC5.primIndex = [] := by decide

theorem c5_witness :
    (2 ∈ stC5.primIndex ↔ ∃ e ∈ stC5.sess.props, e.2.id = 2 ∧
        e.2.phase = Phase.running ∧ primBody e.2.input.body = true) ∧
    stC5.sessIndex = stC5.primIndex := by
  have h := c5_index_tracks_running stC5
    (Reach.step (.propose 8 2 inpC5 [.closeSelf]) (Reach.init 9 1 60 0)
      (show (2 : Nat) ∉ (openState 9 1 60 0).usedIds by decide))
  exact ⟨h.1 2, h.2⟩

/-- C7 (amended): A proposal deadline schedules a Cancel of that proposal
at the deadline's logical time; when the timer fires on a still-Running
proposal the phase becomes Canceled; a subsequent retry of the same
`(session, sequence_num)` replays the outputs cached at cancellation time
(none if none were emitted) and does NOT close the new parent handle —
replay closes the handle only for phase Complete. -/
theorem c7_deadline_cancel_then_replay
    (st : MState) (_hreach : Reach st) (hreg : st.registered = true) :
    (∀ (h pid : Nat) (inp : SPInput) (d : Nat), inp.deadline = some d →
      (managedSession.executeCore st h pid inp).timers =
        st.timers ++ [⟨st.nextTid, d, .deadline inp.seqNum pid, true⟩]) ∧
    (∀ (tid : Nat) (tr : TimerRec) (key pid : Nat) (p : SProp),
      st.timers.find? (fun x => x.tid == tid) = some tr → tr.alive = true →
      tr.fireAt ≤ st.time → tr.kind = .deadline key pid →
      alookup st.sess.props key = some p → p.id = pid → p.phase = Phase.running →
      alookup (stepEv st (.fire tid)).sess.props key =
        some { p with phase := .canceled }) ∧
    (∀ (h' pid' : Nat) (inp' : SPInput) (script : List AOp) (p : SProp),
      alookup st.sess.props inp'.seqNum = some p → p.phase = Phase.canceled →
      (stepEv st (.propose h' pid' inp' script)).emissions =
        st.emissions ++ p.outputs.map fun o => ⟨h', EmKind.outp o⟩) := by
  refine ⟨?_, ?_, ?_⟩
  · intro h pid inp d hd
    unfold managedSession.executeCore
    rcases hb : inp.body with _ | _ | _ <;> simp [hd, hb]
  · intro tid tr key pid p hf halive hdue hk hl hid hph
    rw [fire_deadline_cancel st tid tr key pid p hf halive hdue hk hl hid hph]
    show alookup (updEntry st.sess.props key { p with phase := .canceled }) key = _
    rw [alookup_updEntry_eq, hl]
    rfl
  · intro h' pid' inp' script p hp hph
    have hp0 : alookup ({ st with usedIds := st.usedIds ++ [pid'] } : MState).sess.props
        inp'.seqNum = some p := hp
    rw [stepEv_propose_reg st h' pid' inp' script hreg,
      propose_replay _ h' pid' inp' script p hp0,
      replay_char _ h' inp'.seqNum p hp0]
    have : p.phase ≠ Phase.complete := by rw [hph]; intro hcon; cases hcon
    simp [this]

theorem c7_witness :
    (∀ (h pid : Nat) (inp : SPInput) (d : Nat), inp.deadline = some d →
      (managedSession.executeCore (openState 9 1 60 0) h pid inp).timers =
        (openState 9 1 60 0).timers ++
          [⟨(openState 9 1 60 0).nextTid, d, .deadline inp.seqNum pid, true⟩]) ∧
    (∀ (tid : Nat) (tr : TimerRec) (key pid : Nat) (p : SProp),
      (openState 9 1 60 0).timers.find? (fun x => x.tid == tid) = some tr →
      tr.alive = true →
      tr.fireAt ≤ (openState 9 1 60 0).time → tr.kind = .deadline key pid →
      alookup (openState 9 1 60 0).sess.props key = some p → p.id = pid →
      p.phase = Phase.running →
      alookup (stepEv (openState 9 1 60 0) (.fire tid)).sess.props key =
        some { p with phase := .canceled }) ∧
    (∀ (h' pid' : Nat) (inp' : SPInput) (script : List AOp) (p : SProp),
      alookup (openState 9 1 60 0).sess.props inp'.seqNum = some p →
      p.phase = Phase.canceled →
      (stepEv (openState 9 1 60 0) (.propose h' pid' inp' script)).emissions =
        (openState 9 1 60 0).emissions ++
          p.outputs.map fun o => ⟨h', EmKind.outp o⟩) :=
  c7_deadline_cancel_then_replay (openState 9 1 60 0) (Reach.init 9 1 60 0) rfl

/-- Input with a 5-tick deadline used by the C7 counterexample. -/
def inpC7 : SPInput := ⟨1, 1, some 5, .proposal 1 0⟩

/-- Open; propose seq 1 with deadline 5 (adapter emits nothing and leaves
the proposal open); advance the clock to 5; fire the deadline timer; retry
seq 1 on a new handle 7. -/
def stC7 : MState :=
  runEvs (openState 9 1 60 0)
    [.propose 8 2 inpC7 [], .tick 5, .fire 1, .propose 7 3 inpC7 []]

/-- Counterexample to C7 as stated: after the deadline cancellation, the
retry of `(session, seq 1)` replays no outputs AND does not close the new
parent handle 7 — the emission log contains no event for handle 7 at all,
while the claim requires a close on the new handle. -/
theorem c7_counterexample :
    (alookup stC7.sess.props 1).map (fun p => p.phase) = some Phase.canceled ∧
    stC7.emissions =
      [⟨9, .openOut 1⟩, ⟨9, .closedEm⟩, ⟨8, .canceledEm⟩] := by decide

theorem kaStep_clock (test : List Nat → Bool) (lastIn : Nat)
    (acks : List (Nat × Nat)) (st : MState) (key : Nat) :
    (managedSession.kaStep test lastIn acks st key).time = st.time ∧
    (managedSession.kaStep test lastIn acks st key).sess.timeout = st.sess.timeout := by
  unfold managedSession.kaStep
  rcases h : alookup st.sess.props key with _ | p
  · exact ⟨rfl, rfl⟩
  · dsimp only
    by_cases h2 : lastIn < p.input.seqNum
    · rw [if_pos h2]; exact ⟨rfl, rfl⟩
    · rw [if_neg h2]
      by_cases h3 : test (be8 p.input.seqNum) = false
      · rw [if_pos h3]
        have hcl : (sessionProposal.Cancel st p.input.seqNum).time = st.time ∧
            (sessionProposal.Cancel st p.input.seqNum).sess.timeout =
              st.sess.timeout := by
          rcases hc : alookup st.sess.props p.input.seqNum with _ | q
          · rw [cancel_none st _ hc]; exact ⟨rfl, rfl⟩
          · by_cases hr : q.phase = Phase.running
            · rw [cancel_char st _ q hc hr]; exact ⟨rfl, rfl⟩
            · rw [cancel_noop st _ q hc hr]; exact ⟨rfl, rfl⟩
        exact hcl
      · rw [if_neg h3]
        rcases h4 : alookup acks p.input.seqNum with _ | v
        · exact ⟨rfl, rfl⟩
        · dsimp only
          rcases hc : alookup st.sess.props p.input.seqNum with _ | q
          · rw [ack_none st _ v hc]; exact ⟨rfl, rfl⟩
          · rw [ack_char st _ v q hc]; exact ⟨rfl, rfl⟩

theorem kaFold_clock (test : List Nat → Bool) (lastIn : Nat)
    (acks : List (Nat × Nat)) (ks : List Nat) :
    ∀ st : MState,
      ((ks.foldl (managedSession.kaStep test lastIn acks) st).time = st.time ∧
       (ks.foldl (managedSession.kaStep test lastIn acks) st).sess.timeout =
         st.sess.timeout) := by
  induction ks with
  | nil => exact fun st => ⟨rfl, rfl⟩
  | cons k rest ih =>
    intro st
    have h1 := kaStep_clock test lastIn acks st k
    have h2 := ih (managedSession.kaStep test lastIn acks st k)
    exact ⟨h2.1.trans h1.1, h2.2.trans h1.2⟩

/-- `keepAlive` refreshes `lastUpdated` to the manager's (unchanged)
logical time and preserves the configured timeout. -/
theorem keepAlive_clock (st : MState) (h : Nat) (test : List Nat → Bool)
    (lastIn : Nat) (acks : List (Nat × Nat)) :
    (managedSession.keepAlive st h test lastIn acks).sess.lastUpdated = st.time ∧
    (managedSession.keepAlive st h test lastIn acks).sess.timeout =
      st.sess.timeout := by
  unfold managedSession.keepAlive
  dsimp only
  rw [scheduleExpire_char]
  exact ⟨(kaFold_clock test lastIn acks _ st).1, (kaFold_clock test lastIn acks _ st).2⟩

theorem stepEv_keepAlive_reg (st : MState) (h : Nat) (test : List Nat → Bool)
    (lastIn : Nat) (acks : List (Nat × Nat)) (hreg : st.registered = true) :
    stepEv st (.keepAlive h test lastIn acks) =
      managedSession.keepAlive st h test lastIn acks := by
  simp [stepEv, hreg]

/-- C4 (amended): A fired expire callback on a cancelled (dead) timer is a
no-op; when an alive expire timer fires, the logical clock has reached
`last_updated + timeout` (so closure by expiration indeed happens at or
after that instant) and the session transitions to Closed with its
watchers fired; a keep-alive reschedules the expire timer to
`time + timeout`, which is at or after — but NOT strictly after — every
previously scheduled alive expiration (equality when the keep-alive
arrives at the same logical time that produced the current timer). -/
theorem c4_expiration_timing (st : MState) (hreach : Reach st)
    (h : Nat) (test : List Nat → Bool) (lastIn : Nat) (acks : List (Nat × Nat)) :
    (∀ tid tr, st.timers.find? (fun x => x.tid == tid) = some tr →
      tr.alive = false → stepEv st (.fire tid) = st) ∧
    (∀ tid tr, st.timers.find? (fun x => x.tid == tid) = some tr →
      tr.alive = true → tr.fireAt ≤ st.time → tr.kind = .expire →
      st.sess.lastUpdated + st.sess.timeout ≤ st.time ∧
      stepEv st (.fire tid) =
        { st with
          timers := cancelTimer st.timers tid,
          registered := false,
          sess.state := .closed,
          watcherLog := st.watcherLog ++ [.sessClosed] }) ∧
    (st.registered = true →
      (∀ tr ∈ st.timers, tr.kind = .expire → tr.alive = true →
        tr.fireAt ≤ st.time + st.sess.timeout) ∧
      (∀ tr ∈ (stepEv st (.keepAlive h test lastIn acks)).timers,
        tr.kind = .expire → tr.alive = true →
        tr.fireAt = st.time + st.sess.timeout)) := by
  have hinv := reach_inv st hreach
  refine ⟨?_, ?_, ?_⟩
  · intro tid tr hf hdead
    exact fire_dead st tid tr hf (by rw [hdead]; rfl)
  · intro tid tr hf halive hdue hk
    obtain ⟨_, hfa⟩ := hinv.expSync tr (List.mem_of_find?_eq_some hf) hk halive
    refine ⟨by rw [← hfa]; exact hdue, fire_expire st tid tr hf halive hdue hk⟩
  · intro hreg
    constructor
    · intro tr htr hk halive
      obtain ⟨_, hfa⟩ := hinv.expSync tr htr hk halive
      have hlu := hinv.luLe
      omega
    · intro tr htr hk halive
      have hinvKA : Inv (stepEv st (.keepAlive h test lastIn acks)) :=
        inv_step st _ hinv trivial
      obtain ⟨_, hfa⟩ := hinvKA.expSync tr htr hk halive
      rw [hfa, stepEv_keepAlive_reg st h test lastIn acks hreg,
        (keepAlive_clock st h test lastIn acks).1,
        (keepAlive_clock st h test lastIn acks).2]

/-- A keep-alive applied at the very logical time the session was opened. -/
def stC4 : MState := stepEv (openState 9 1 60 0) (.keepAlive 8 (fun _ => true) 0 [])

/-- Counterexample to C4 as stated (strict postponement): at open the
expire timer is scheduled at logical time 60; a keep-alive at time 0
cancels it and schedules the replacement at the very same time 60 — the
expiration instant is not strictly postponed. -/
theorem c4_counterexample :
    (openState 9 1 60 0).timers = [⟨0, 60, .expire, true⟩] ∧
    stC4.timers = [⟨0, 60, .expire, false⟩, ⟨1, 60, .expire, true⟩] := by decide

theorem c4_witness :
    (∀ tid tr,
      (openState 9 1 60 0).timers.find? (fun x => x.tid == tid) = some tr →
      tr.alive = false →
      stepEv (openState 9 1 60 0) (.fire tid) = openState 9 1 60 0) ∧
    (∀ tid tr,
      (openState 9 1 60 0).timers.find? (fun x => x.tid == tid) = some tr →
      tr.alive = true → tr.fireAt ≤ (openState 9 1 60 0).time →
      tr.kind = .expire →
      (openState 9 1 60 0).sess.lastUpdated + (openState 9 1 60 0).sess.timeout ≤
        (openState 9 1 60 0).time ∧
      stepEv (openState 9 1 60 0) (.fire tid) =
        { openState 9 1 60 0 with
          timers := cancelTimer (openState 9 1 60 0).timers tid,
          registered := false,
          sess.state := .closed,
          watcherLog := (openState 9 1 60 0).watcherLog ++ [.sessClosed] }) ∧
    ((openState 9 1 60 0).registered = true →
      (∀ tr ∈ (openState 9 1 60 0).timers, tr.kind = .expire → tr.alive = true →
        tr.fireAt ≤ (openState 9 1 60 0).time + (openState 9 1 60 0).sess.timeout) ∧
      (∀ tr ∈ (stepEv (openState 9 1 60 0)
          (.keepAlive 8 (fun _ => true) 0 [])).timers,
        tr.kind = .expire → tr.alive = true →
        tr.fireAt = (openState 9 1 60 0).time + (openState 9 1 60 0).sess.timeout)) :=
  c4_expiration_timing (openState 9 1 60 0) (Reach.init 9 1 60 0)
    8 (fun _ => true) 0 []

theorem alookup_removeEntry_self (l : List (Nat × SProp)) (k : Nat) :
    alookup (removeEntry l k) k = none := by
  induction l with
  | nil => rfl
  | cons e rest ih =>
    obtain ⟨a, b⟩ := e
    unfold removeEntry at ih ⊢
    rw [List.filter_cons]
    by_cases hak : a = k
    · rw [if_neg (by simp [hak])]
      exact ih
    · rw [if_pos (by simp [hak])]
      rw [alookup_cons, if_neg hak]
      exact ih

theorem alookup_removeEntry_ne (l : List (Nat × SProp)) (k k' : Nat)
    (h : k ≠ k') :
    alookup (removeEntry l k) k' = alookup l k' := by
  induction l with
  | nil => rfl
  | cons e rest ih =>
    obtain ⟨a, b⟩ := e
    unfold removeEntry at ih ⊢
    rw [List.filter_cons]
    by_cases hak : a = k
    · rw [if_neg (by simp [hak])]
      rw [alookup_cons, if_neg (by rw [hak]; exact h)]
      exact ih
    · rw [if_pos (by simp [hak])]
      rw [alookup_cons, alookup_cons]
      by_cases hak' : a = k'
      · rw [if_pos hak', if_pos hak']
      · rw [if_neg hak', if_neg hak']
        exact ih

/-- Processing one keep-alive key leaves every other key's entry alone. -/
theorem kaStep_lookup_ne (test : List Nat → Bool) (lastIn : Nat)
    (acks : List (Nat × Nat)) (st : MState) (k' k : Nat)
    (hinv : Inv st) (hne : k' ≠ k) :
    alookup (managedSession.kaStep test lastIn acks st k').sess.props k =
      alookup st.sess.props k := by
  unfold managedSession.kaStep
  rcases h : alookup st.sess.props k' with _ | p
  · rfl
  · dsimp only
    have hseq : p.input.seqNum = k' := hinv.keySeq (k', p) (alookup_mem _ _ _ h)
    rw [hseq]
    by_cases h2 : lastIn < k'
    · rw [if_pos h2]
    · rw [if_neg h2]
      by_cases h3 : test (be8 k') = false
      · rw [if_pos h3]
        show alookup (removeEntry (sessionProposal.Cancel st k').sess.props k') k =
          alookup st.sess.props k
        rw [alookup_removeEntry_ne _ _ _ hne]
        by_cases hr : p.phase = Phase.running
        · rw [cancel_char st k' p h hr]
          show alookup (updEntry st.sess.props k'
            { p with phase := Phase.canceled }) k = _
          exact alookup_updEntry_ne _ _ _ _ hne
        · rw [cancel_noop st k' p h hr]
      · rw [if_neg h3]
        rcases h4 : alookup acks k' with _ | v
        · rfl
        · dsimp only
          rw [ack_char st k' v p h]
          show alookup (updEntry st.sess.props k' _) k = _
          exact alookup_updEntry_ne _ _ _ _ hne

/-- Processing a key's own entry: untouched above `lastIn`, evicted on a
negative Bloom-filter test, acked outputs dropped otherwise. -/
theorem kaStep_lookup_self (test : List Nat → Bool) (lastIn : Nat)
    (acks : List (Nat × Nat)) (st : MState) (k : Nat) (p : SProp)
    (hinv : Inv st) (hp : alookup st.sess.props k = some p) :
    alookup (managedSession.kaStep test lastIn acks st k).sess.props k =
      (if lastIn < k then some p
       else if test (be8 k) = false then none
       else match alookup acks k with
            | some v => some { p with outputs := p.outputs.dropWhile (fun o => decide (o.seqNum ≤ v)) }
            | none => some p) := by
  unfold managedSession.kaStep
  rw [hp]
  dsimp only
  have hseq : p.input.seqNum = k := hinv.keySeq (k, p) (alookup_mem _ _ _ hp)
  rw [hseq]
  by_cases h2 : lastIn < k
  · rw [if_pos h2, if_pos h2]
    exact hp
  · rw [if_neg h2, if_neg h2]
    by_cases h3 : test (be8 k) = false
    · rw [if_pos h3, if_pos h3]
      exact alookup_removeEntry_self _ _
    · rw [if_neg h3, if_neg h3]
      rcases h4 : alookup acks k with _ | v
      · dsimp only
        exact hp
      · dsimp only
        rw [ack_char st k v p hp]
        show alookup (updEntry st.sess.props k _) k = _
        rw [alookup_updEntry_eq, hp]
        rfl

/-- A negative Bloom-filter test evicts the proposal: the ghost `evicted`
log records it with phase Canceled only when it was Running — a Complete
or already-Canceled proposal is evicted with its phase unchanged, because
`Cancel` is a no-op on non-Running proposals. -/
theorem kaStep_evicted_char (test : List Nat → Bool) (lastIn : Nat)
    (acks : List (Nat × Nat)) (st : MState) (k : Nat) (p : SProp)
    (hinv : Inv st) (hp : alookup st.sess.props k = some p)
    (h2 : ¬ lastIn < k) (h3 : test (be8 k) = false) :
    (managedSession.kaStep test lastIn acks st k).evicted =
      st.evicted ++ [if p.phase = Phase.running
        then { p with phase := Phase.canceled } else p] := by
  unfold managedSession.kaStep
  rw [hp]
  dsimp only
  have hseq : p.input.seqNum = k := hinv.keySeq (k, p) (alookup_mem _ _ _ hp)
  rw [hseq, if_neg h2, if_pos h3]
  by_cases hr : p.phase = Phase.running
  · rw [if_pos hr]
    show (sessionProposal.Cancel st k).evicted ++
        [(alookup (sessionProposal.Cancel st k).sess.props k).getD p] =
      st.evicted ++ [{ p with phase := Phase.canceled }]
    rw [cancel_char st k p hp hr]
    show st.evicted ++ [(alookup (updEntry st.sess.props k
      { p with phase := Phase.canceled }) k).getD p] = _
    rw [alookup_updEntry_eq, hp]
    rfl
  · rw [if_neg hr]
    show (sessionProposal.Cancel st k).evicted ++
        [(alookup (sessionProposal.Cancel st k).sess.props k).getD p] =
      st.evicted ++ [p]
    rw [cancel_noop st k p hp hr, hp]
    rfl

theorem kaFold_lookup_notmem (test : List Nat → Bool) (lastIn : Nat)
    (acks : List (Nat × Nat)) (k : Nat) :
    ∀ (ks : List Nat) (st : MState), Inv st → k ∉ ks →
      alookup ((ks.foldl (managedSession.kaStep test lastIn acks) st)).sess.props k =
        alookup st.sess.props k := by
  intro ks
  induction ks with
  | nil => exact fun st _ _ => rfl
  | cons k' rest ih =>
    intro st hinv hnm
    have h1 : k ≠ k' ∧ k ∉ rest := by simpa [List.mem_cons, not_or] using hnm
    rw [List.foldl_cons,
      ih _ (inv_kaStep test lastIn acks st k' hinv) h1.2,
      kaStep_lookup_ne test lastIn acks st k' k hinv (Ne.symm h1.1)]

/-- Folding the keep-alive step over a duplicate-free key list processes
each present entry exactly once. -/
theorem kaFold_pointwise (test : List Nat → Bool) (lastIn : Nat)
    (acks : List (Nat × Nat)) (k : Nat) (p : SProp) :
    ∀ (ks : List Nat) (st : MState), Inv st → ks.Nodup → k ∈ ks →
      alookup st.sess.props k = some p →
      alookup ((ks.foldl (managedSession.kaStep test lastIn acks) st)).sess.props k =
        (if lastIn < k then some p
         else if test (be8 k) = false then none
         else match alookup acks k with
              | some v => some { p with outputs := p.outputs.dropWhile (fun o => decide (o.seqNum ≤ v)) }
              | none => some p) := by
  intro ks
  induction ks with
  | nil =>
    intro st _ _ hmem
    cases hmem
  | cons k' rest ih =>
    intro st hinv hnd hmem hp
    rw [List.foldl_cons]
    by_cases hk : k' = k
    · subst hk
      have hnm : k' ∉ rest := (List.nodup_cons.mp hnd).1
      rw [kaFold_lookup_notmem test lastIn acks k' rest _
        (inv_kaStep test lastIn acks st k' hinv) hnm]
      exact kaStep_lookup_self test lastIn acks st k' p hinv hp
    · have hmem' : k ∈ rest := by
        rcases List.mem_cons.mp hmem with hh | hh
        · exact absurd hh.symm hk
        · exact hh
      refine ih _ (inv_kaStep test lastIn acks st k' hinv)
        (List.nodup_cons.mp hnd).2 hmem' ?_
      rw [kaStep_lookup_ne test lastIn acks st k' k hinv hk]
      exact hp

/-- Keep-alive, seen from one proposal's entry. -/
theorem keepAlive_pointwise (st : MState) (h : Nat) (test : List Nat → Bool)
    (lastIn : Nat) (acks : List (Nat × Nat)) (k : Nat) (p : SProp)
    (hinv : Inv st) (hp : alookup st.sess.props k = some p) :
    alookup (managedSession.keepAlive st h test lastIn acks).sess.props k =
      (if lastIn < k then some p
       else if test (be8 k) = false then none
       else match alookup acks k with
            | some v => some { p with outputs := p.outputs.dropWhile (fun o => decide (o.seqNum ≤ v)) }
            | none => some p) := by
  unfold managedSession.keepAlive
  dsimp only
  rw [scheduleExpire_char]
  show alookup ((st.sess.props.map Prod.fst).foldl
    (managedSession.kaStep test lastIn acks) st).sess.props k = _
  refine kaFold_pointwise test lastIn acks k p _ st hinv hinv.keysNodup ?_ hp
  rw [mem_keys_iff_alookup, hp]
  rfl

/-- On a list of outputs whose sequence numbers form a contiguous
ascending range, dropping the prefix of acknowledged outputs removes
exactly the entries with sequence number at most `v`. -/
theorem dropWhile_eq_filter_of_range (v : Nat) :
    ∀ (l : List SPOutput) (a n : Nat), l.map SPOutput.seqNum = List.range' a n →
      l.dropWhile (fun o => decide (o.seqNum ≤ v)) =
        l.filter (fun o => decide (v < o.seqNum)) := by
  intro l
  induction l with
  | nil => intro a n _; rfl
  | cons o t ih =>
    intro a n hm
    cases n with
    | zero => simp at hm
    | succ m =>
      rw [List.range'_succ] at hm
      simp only [List.map_cons, List.cons.injEq] at hm
      obtain ⟨ho, ht⟩ := hm
      rw [List.dropWhile_cons, List.filter_cons]
      by_cases hov : o.seqNum ≤ v
      · rw [if_pos (by simpa using hov)]
        rw [if_neg (by simpa using Nat.not_lt.mpr hov)]
        exact ih (a + 1) m ht
      · rw [if_neg (by simpa using hov)]
        rw [if_pos (by simpa using Nat.not_le.mp hov)]
        have hall : ∀ x ∈ t, (fun o : SPOutput => decide (v < o.seqNum)) x = true := by
          intro x hx
          have hxm : x.seqNum ∈ t.map SPOutput.seqNum := List.mem_map_of_mem _ hx
          rw [ht] at hxm
          have hb := (List.mem_range'_1.mp hxm).1
          simp only [decide_eq_true_eq]
          omega
        rw [List.filter_eq_self.mpr hall]

/-- C3 (amended): A single KeepAlive, for each proposal entry `(k, p)` of
an open session: leaves the entry untouched when `k` exceeds
`last_input_sequence_num`; removes it from `sessionProposals` when the
Bloom-filter test on the big-endian 8-byte encoding of `k` fails — but it
cancels (phase Canceled) ONLY a Running proposal, a Complete or Canceled
one is evicted with its phase unchanged; when an acknowledged output
sequence number `v` is supplied for `k`, it removes from the cached
outputs exactly the entries with sequence number at most `v`; afterwards
`last_updated` equals the manager's logical time and a fresh alive expire
timer is scheduled at `time + timeout`. -/
theorem c3_keepalive_per_proposal (st : MState) (hreach : Reach st)
    (hreg : st.registered = true) (h : Nat) (test : List Nat → Bool)
    (lastIn : Nat) (acks : List (Nat × Nat)) (k : Nat) (p : SProp)
    (hp : alookup st.sess.props k = some p) :
    (lastIn < k →
      alookup (stepEv st (.keepAlive h test lastIn acks)).sess.props k = some p) ∧
    (¬ lastIn < k → test (be8 k) = false →
      alookup (stepEv st (.keepAlive h test lastIn acks)).sess.props k = none ∧
      (managedSession.kaStep test lastIn acks st k).evicted =
        st.evicted ++ [if p.phase = Phase.running
          then { p with phase := Phase.canceled } else p]) ∧
    (¬ lastIn < k → ¬ test (be8 k) = false → ∀ v, alookup acks k = some v →
      alookup (stepEv st (.keepAlive h test lastIn acks)).sess.props k =
        some { p with outputs :=
          p.outputs.filter fun o => decide (v < o.seqNum) }) ∧
    (stepEv st (.keepAlive h test lastIn acks)).sess.lastUpdated = st.time ∧
    (∃ tr ∈ (stepEv st (.keepAlive h test lastIn acks)).timers,
      tr.kind = .expire ∧ tr.alive = true ∧
      tr.fireAt = st.time + st.sess.timeout) := by
  have hinv := reach_inv st hreach
  rw [stepEv_keepAlive_reg st h test lastIn acks hreg]
  have hpt := keepAlive_pointwise st h test lastIn acks k p hinv hp
  refine ⟨?_, ?_, ?_, ?_, ?_⟩
  · intro h2
    rw [hpt, if_pos h2]
  · intro h2 h3
    refine ⟨by rw [hpt, if_neg h2, if_pos h3], ?_⟩
    exact kaStep_evicted_char test lastIn acks st k p hinv hp h2 h3
  · intro h2 h3 v hv
    rw [hpt, if_neg h2, if_neg h3, hv]
    dsimp only
    obtain ⟨a, b, _, _, _, hmap⟩ := hinv.outShape (k, p) (alookup_mem _ _ _ hp)
    rw [dropWhile_eq_filter_of_range v p.outputs (a + 1) (b - a) hmap]
  · exact (keepAlive_clock st h test lastIn acks).1
  · refine ⟨⟨((st.sess.props.map Prod.fst).foldl
        (managedSession.kaStep test lastIn acks) st).nextTid,
      st.time + st.sess.timeout, .expire, true⟩, ?_, rfl, rfl, rfl⟩
    unfold managedSession.keepAlive
    dsimp only
    rw [scheduleExpire_char]
    refine List.mem_append_right _ ?_
    have hc := kaFold_clock test lastIn acks (st.sess.props.map Prod.fst) st
    rw [hc.1, hc.2]
    exact List.mem_singleton_self _

/-- Open session with one Running proposal (no deadline), used to witness
C3. -/
def c3Pre : MState := stepEv (openState 9 1 60 0) (.propose 8 2 inpC5 [])

/-- The proposal record stored under sequence number 1 in `c3Pre`. -/
def pC3w : SProp := ⟨2, inpC5, Phase.running, some 8, none, [], 0⟩

/-- A session whose only proposal is already Complete, hit by a keep-alive
whose Bloom filter rejects sequence number 1. -/
def stC3 : MState :=
  stepEv (stepEv (openState 9 1 60 0) (.propose 8 2 inpC5 [.closeSelf]))
    (.keepAlive 7 (fun _ => false) 1 [])

/-- Counterexample to C3 as stated: the evicted proposal was Complete, so
the eviction does NOT cancel it — it is removed from `sessionProposals`
with phase still Complete (the ghost `evicted` log records the very record
that was deleted), and no Canceled phase ever appears for id 2 in the
watcher log. -/
theorem c3_counterexample :
    alookup stC3.sess.props 1 = none ∧
    stC3.evicted.map (fun p => p.phase) = [Phase.complete] ∧
    WatchEv.prop 2 Phase.canceled ∉ stC3.watcherLog := by decide

theorem c3_witness :
    ((1 : Nat) < 1 →
      alookup (stepEv c3Pre
        (.keepAlive 7 (fun _ => false) 1 [])).sess.props 1 = some pC3w) ∧
    (¬ (1 : Nat) < 1 → (fun _ : List Nat => false) (be8 1) = false →
      alookup (stepEv c3Pre
        (.keepAlive 7 (fun _ => false) 1 [])).sess.props 1 = none ∧
      (managedSession.kaStep (fun _ => false) 1 [] c3Pre 1).evicted =
        c3Pre.evicted ++ [if pC3w.phase = Phase.running
          then { pC3w with phase := Phase.canceled } else pC3w]) ∧
    (¬ (1 : Nat) < 1 → ¬ (fun _ : List Nat => false) (be8 1) = false →
      ∀ v, alookup ([] : List (Nat × Nat)) 1 = some v →
      alookup (stepEv c3Pre
        (.keepAlive 7 (fun _ => false) 1 [])).sess.props 1 =
        some { pC3w with outputs :=
          pC3w.outputs.filter fun o => decide (v < o.seqNum) }) ∧
    (stepEv c3Pre
      (.keepAlive 7 (fun _ => false) 1 [])).sess.lastUpdated = c3Pre.time ∧
    (∃ tr ∈ (stepEv c3Pre
        (.keepAlive 7 (fun _ => false) 1 [])).timers,
      tr.kind = .expire ∧ tr.alive = true ∧
      tr.fireAt = c3Pre.time + c3Pre.sess.timeout) :=
  c3_keepalive_per_proposal c3Pre
    (Reach.step (.propose 8 2 inpC5 []) (Reach.init 9 1 60 0)
      (show (2 : Nat) ∉ (openState 9 1 60 0).usedIds by decide))
    rfl 7 (fun _ => false) 1 [] 1 pC3w rfl

/-- C8 (amended): The typed output wrapper always increments
`last_output_sequence_num` by exactly 1 and stamps the new output with the
incremented value, but it caches and forwards the output only while the
proposal is not Complete; `Error` increments by exactly 1 and caches the
failure when the proposal is not Complete, and is a complete no-op (NO
increment) on a Complete proposal.  Consequently, in every reachable state
the cached outputs of a proposal form a contiguous ascending range
`a+1 .. b` of sequence numbers with `b = last_output_sequence_num` unless
the proposal is Complete — a Complete proposal's counter may exceed the
largest cached output because post-completion outputs are dropped after
the increment. -/
theorem c8_output_numbering (st : MState) (hreach : Reach st) :
    (∀ key payload p, alookup st.sess.props key = some p →
      ∃ q, alookup (sessionProposal.wrapOut st key payload).sess.props key =
          some q ∧
        q.outputSeqNum = p.outputSeqNum + 1 ∧
        (p.phase ≠ Phase.complete →
          q.outputs = p.outputs ++
            [⟨p.outputSeqNum + 1, sessionProposal.wrapBody p.input.body payload⟩]) ∧
        (p.phase = Phase.complete → q.outputs = p.outputs)) ∧
    (∀ key status msg p, alookup st.sess.props key = some p →
      (p.phase ≠ Phase.complete →
        ∃ q, alookup
            (sessionProposal.Error st key status msg).sess.props key = some q ∧
          q.outputSeqNum = p.outputSeqNum + 1 ∧
          q.outputs = p.outputs ++
            [⟨p.outputSeqNum + 1, OutBody.failure status msg⟩]) ∧
      (p.phase = Phase.complete →
        sessionProposal.Error st key status msg = st)) ∧
    (∀ e ∈ st.sess.props, ∃ a b, a ≤ b ∧ b ≤ e.2.outputSeqNum ∧
      (e.2.phase = Phase.complete ∨ b = e.2.outputSeqNum) ∧
      e.2.outputs.map SPOutput.seqNum = List.range' (a + 1) (b - a)) := by
  have hinv := reach_inv st hreach
  refine ⟨?_, ?_, ?_⟩
  · intro key payload p hp
    by_cases hc : p.phase = Phase.complete
    · refine ⟨{ p with outputSeqNum := p.outputSeqNum + 1 }, ?_, rfl,
        fun hnc => absurd hc hnc, fun _ => rfl⟩
      rw [wrapOut_complete st key payload p hp hc]
      show alookup (updEntry st.sess.props key _) key = _
      rw [alookup_updEntry_eq, hp]
      rfl
    · refine ⟨{ p with
          outputSeqNum := p.outputSeqNum + 1,
          outputs := p.outputs ++
            [⟨p.outputSeqNum + 1, sessionProposal.wrapBody p.input.body payload⟩] },
        ?_, rfl, fun _ => rfl, fun hcc => absurd hcc hc⟩
      rw [wrapOut_char st key payload p hp hc]
      show alookup (updEntry st.sess.props key _) key = _
      rw [alookup_updEntry_eq, hp]
      rfl
  · intro key status msg p hp
    constructor
    · intro hnc
      refine ⟨{ p with
          outputSeqNum := p.outputSeqNum + 1,
          outputs := p.outputs ++
            [⟨p.outputSeqNum + 1, OutBody.failure status msg⟩] }, ?_, rfl, rfl⟩
      rw [error_char st key status msg p hp hnc]
      show alookup (updEntry st.sess.props key _) key = _
      rw [alookup_updEntry_eq, hp]
      rfl
    · intro hc
      exact error_complete st key status msg p hp hc
  · intro e he
    exact hinv.outShape e he

/-- The adapter completes the proposal, then tries to emit an output and a
failure on it. -/
def stC8 : MState :=
  stepEv (openState 9 1 60 0)
    (.propose 8 2 inpC5 [.closeSelf, .outSelf 7, .errSelf 3 4])

/-- Counterexample to C8 as stated: the post-completion output bumped
`last_output_sequence_num` to 1 while caching nothing, so the cached list
(empty) is not the range `1 .. 1`; and the post-completion failure did not
increment the counter at all (it would be 2 otherwise). -/
theorem c8_counterexample :
    (alookup stC8.sess.props 1).map
      (fun p => (p.outputSeqNum, p.outputs, p.phase)) =
      some (1, [], Phase.complete) := by decide

theorem c8_witness :
    (∀ key payload p,
      alookup (openState 9 1 60 0).sess.props key = some p →
      ∃ q, alookup
          (sessionProposal.wrapOut (openState 9 1 60 0) key payload).sess.props
          key = some q ∧
        q.outputSeqNum = p.outputSeqNum + 1 ∧
        (p.phase ≠ Phase.complete →
          q.outputs = p.outputs ++
            [⟨p.outputSeqNum + 1, sessionProposal.wrapBody p.input.body payload⟩]) ∧
        (p.phase = Phase.complete → q.outputs = p.outputs)) ∧
    (∀ key status msg p,
      alookup (openState 9 1 60 0).sess.props key = some p →
      (p.phase ≠ Phase.complete →
        ∃ q, alookup
            (sessionProposal.Error (openState 9 1 60 0) key status msg).sess.props
            key = some q ∧
          q.outputSeqNum = p.outputSeqNum + 1 ∧
          q.outputs = p.outputs ++
            [⟨p.outputSeqNum + 1, OutBody.failure status msg⟩]) ∧
      (p.phase = Phase.complete →
        sessionProposal.Error (openState 9 1 60 0) key status msg =
          openState 9 1 60 0)) ∧
    (∀ e ∈ (openState 9 1 60 0).sess.props, ∃ a b, a ≤ b ∧
      b ≤ e.2.outputSeqNum ∧
      (e.2.phase = Phase.complete ∨ b = e.2.outputSeqNum) ∧
      e.2.outputs.map SPOutput.seqNum = List.range' (a + 1) (b - a)) :=
  c8_output_numbering (openState 9 1 60 0) (Reach.init 9 1 60 0)

/-- C10: On a proposal in phase Canceled, `Output` (through the typed
wrapper, which assigns the next output sequence number) and `Error` are not
suppressed: the output is appended to the cached outputs and forwarded to
the bound parent handle if any.  Only phase Complete drops outputs (the
wrapper still increments the counter first) and errors (dropped before any
increment). -/
theorem c10_canceled_outputs_not_suppressed
    (st : MState) (key payload status msg : Nat) (p : SProp)
    (h1 : alookup st.sess.props key = some p) :
    (p.phase = Phase.canceled →
      sessionProposal.wrapOut st key payload =
        { st with
          sess.props := updEntry st.sess.props key
            { p with outputSeqNum := p.outputSeqNum + 1,
                     outputs := p.outputs ++
                       [⟨p.outputSeqNum + 1, sessionProposal.wrapBody p.input.body payload⟩] },
          emissions := st.emissions ++
            outEm p.parent ⟨p.outputSeqNum + 1, sessionProposal.wrapBody p.input.body payload⟩ } ∧
      sessionProposal.Error st key status msg =
        { st with
          sess.props := updEntry st.sess.props key
            { p with outputSeqNum := p.outputSeqNum + 1,
                     outputs := p.outputs ++
                       [⟨p.outputSeqNum + 1, OutBody.failure status msg⟩] },
          emissions := st.emissions ++
            outEm p.parent ⟨p.outputSeqNum + 1, OutBody.failure status msg⟩ }) ∧
    (p.phase = Phase.complete →
      sessionProposal.wrapOut st key payload =
        { st with
          sess.props := updEntry st.sess.props key
            { p with outputSeqNum := p.outputSeqNum + 1 } } ∧
      sessionProposal.Error st key status msg = st) := by
  constructor
  · intro hc
    have hne : p.phase ≠ Phase.complete := by rw [hc]; intro h; cases h
    exact ⟨wrapOut_char st key payload p h1 hne, error_char st key status msg p h1 hne⟩
  · intro hc
    exact ⟨wrapOut_complete st key payload p h1 hc, error_complete st key status msg p h1 hc⟩

/-- A concrete canceled proposal used by the C10 witness. -/
def pC10 : SProp :=
  { id := 2, input := ⟨1, 1, none, .proposal 1 0⟩, phase := .canceled,
    parent := some 5, timerRef := none, outputs := [], outputSeqNum := 0 }

/-- A concrete state holding `pC10` under sequence number 1. -/
def stC10 : MState :=
  { time := 0, registered := true,
    sess := { sid := 1, state := .opened, timeout := 60, lastUpdated := 0,
              props := [(1, pC10)] },
    primIndex := [], sessIndex := [], timers := [], expireRef := some 0,
    nextTid := 1, usedIds := [1, 2], emissions := [], adapterCalls := [],
    watcherLog := [], evicted := [] }

/-- Witness for C10 at a concrete canceled proposal. -/
theorem c10_witness :
    (alookup stC10.sess.props 1 = some pC10 ∧ pC10.phase = Phase.canceled) ∧
    (sessionProposal.wrapOut stC10 1 7 =
      { stC10 with
        sess.props := updEntry stC10.sess.props 1
          { pC10 with outputSeqNum := pC10.outputSeqNum + 1,
                      outputs := pC10.outputs ++
                        [⟨pC10.outputSeqNum + 1, sessionProposal.wrapBody pC10.input.body 7⟩] },
        emissions := stC10.emissions ++
          outEm pC10.parent ⟨pC10.outputSeqNum + 1, sessionProposal.wrapBody pC10.input.body 7⟩ } ∧
     sessionProposal.Error stC10 1 4 9 =
      { stC10 with
        sess.props := updEntry stC10.sess.props 1
          { pC10 with outputSeqNum := pC10.outputSeqNum + 1,
                      outputs := pC10.outputs ++
                        [⟨pC10.outputSeqNum + 1, OutBody.failure 4 9⟩] },
        emissions := stC10.emissions ++
          outEm pC10.parent ⟨pC10.outputSeqNum + 1, OutBody.failure 4 9⟩ }) :=
  ⟨⟨by decide, by decide⟩,
   (c10_canceled_outputs_not_suppressed stC10 1 7 4 9 pC10 (by decide)).1 (by decide)⟩

/-! ### Snapshot codec

The snapshot reader/writer pair (component A) is not part of the extracted
source; the definitions below are Modelled from the spec: unsigned LEB128
varints, length-prefixed canonical message bytes, manager-level count
followed by per-session blocks (`SessionSnapshot`, proposal count,
`SessionProposalSnapshot` in map-iteration order). -/

/-- Modelled from the spec: unsigned LEB128 varint byte groups
(little-endian base-128, continuation bit 128), with structural fuel. -/
def encodeVarintAux : Nat → Nat → List Nat
  | 0, _ => []
  | fuel + 1, n =>
    if n < 128 then [n] else (n % 128 + 128) :: encodeVarintAux fuel (n / 128)

/-- Modelled from the spec: `write_varint`. -/
def encodeVarint (n : Nat) : List Nat := encodeVarintAux (n + 1) n

/-- Modelled from the spec: the varint reader dual. -/
def decodeVarint : List Nat → Option (Nat × List Nat)
  | [] => none
  | b :: rest =>
    if b < 128 then some (b, rest)
    else match decodeVarint rest with
         | some (v, r) => some (b - 128 + 128 * v, r)
         | none => none

theorem decodeVarint_encodeAux :
    ∀ (fuel n : Nat), n < fuel → ∀ r : List Nat,
      decodeVarint (encodeVarintAux fuel n ++ r) = some (n, r) := by
  intro fuel
  induction fuel with
  | zero => intro n h; exact absurd h (Nat.not_lt_zero n)
  | succ fuel ih =>
    intro n h r
    unfold encodeVarintAux
    by_cases h128 : n < 128
    · rw [if_pos h128]
      show decodeVarint (n :: r) = some (n, r)
      unfold decodeVarint
      rw [if_pos h128]
    · rw [if_neg h128]
      show decodeVarint ((n % 128 + 128) :: (encodeVarintAux fuel (n / 128) ++ r)) =
        some (n, r)
      unfold decodeVarint
      rw [if_neg (by omega)]
      have hlt : n / 128 < fuel := by
        have := Nat.div_lt_self (by omega : 0 < n) (by omega : 1 < 128)
        omega
      rw [ih (n / 128) hlt r]
      show some (n % 128 + 128 - 128 + 128 * (n / 128), r) = some (n, r)
      have hn : n % 128 + 128 - 128 + 128 * (n / 128) = n := by omega
      rw [hn]

theorem decodeVarint_encode (n : Nat) (r : List Nat) :
    decodeVarint (encodeVarint n ++ r) = some (n, r) :=
  decodeVarint_encodeAux (n + 1) n (Nat.lt_succ_self n) r

/-- Modelled from the spec: canonical bytes of an optional deadline. -/
def encodeOption : Option Nat → List Nat
  | none => [0]
  | some d => 1 :: encodeVarint d

def decodeOption : List Nat → Option (Option Nat × List Nat)
  | [] => none
  | t :: r =>
    if t = 0 then some (none, r)
    else if t = 1 then
      match decodeVarint r with
      | some (d, r1) => some (some d, r1)
      | none => none
    else none

theorem decodeOption_encode (o : Option Nat) (r : List Nat) :
    decodeOption (encodeOption o ++ r) = some (o, r) := by
  cases o with
  | none => rfl
  | some d =>
    show decodeOption (1 :: (encodeVarint d ++ r)) = some (some d, r)
    unfold decodeOption
    dsimp only
    rw [if_neg (by decide), if_pos rfl, decodeVarint_encode]

/-- Modelled from the spec: canonical bytes of a `SessionProposalInput`
body (tagged union). -/
def encodeBody : SPBody → List Nat
  | .proposal pid payload => 0 :: (encodeVarint pid ++ encodeVarint payload)
  | .createPrimitive spec => 1 :: encodeVarint spec
  | .closePrimitive pid => 2 :: encodeVarint pid

def decodeBody : List Nat → Option (SPBody × List Nat)
  | [] => none
  | t :: r =>
    if t = 0 then
      match decodeVarint r with
      | some (pid, r1) =>
        match decodeVarint r1 with
        | some (pl, r2) => some (.proposal pid pl, r2)
        | none => none
      | none => none
    else if t = 1 then
      match decodeVarint r with
      | some (s, r1) => some (.createPrimitive s, r1)
      | none => none
    else if t = 2 then
      match decodeVarint r with
      | some (pid, r1) => some (.closePrimitive pid, r1)
      | none => none
    else none

theorem decodeBody_encode (b : SPBody) (r : List Nat) :
    decodeBody (encodeBody b ++ r) = some (b, r) := by
  cases b with
  | proposal pid payload =>
    show decodeBody (0 :: ((encodeVarint pid ++ encodeVarint payload) ++ r)) = _
    unfold decodeBody
    dsimp only
    rw [if_pos rfl, List.append_assoc, decodeVarint_encode]
    show (match decodeVarint (encodeVarint payload ++ r) with
      | some (pl, r2) => some (SPBody.proposal pid pl, r2)
      | none => none) = _
    rw [decodeVarint_encode]
  | createPrimitive s =>
    show decodeBody (1 :: (encodeVarint s ++ r)) = _
    unfold decodeBody
    dsimp only
    rw [if_neg (by decide), if_pos rfl, decodeVarint_encode]
  | closePrimitive pid =>
    show decodeBody (2 :: (encodeVarint pid ++ r)) = _
    unfold decodeBody
    dsimp only
    rw [if_neg (by decide), if_neg (by decide), if_pos rfl, decodeVarint_encode]

/-- Modelled from the spec: canonical bytes of a `SessionProposalInput`. -/
def encodeInput (i : SPInput) : List Nat :=
  encodeVarint i.sessionId ++ encodeVarint i.seqNum ++
    encodeOption i.deadline ++ encodeBody i.body

def decodeInput (bytes : List Nat) : Option (SPInput × List Nat) :=
  match decodeVarint bytes with
  | some (sid, r1) =>
    match decodeVarint r1 with
    | some (sq, r2) =>
      match decodeOption r2 with
      | some (dl, r3) =>
        match decodeBody r3 with
        | some (b, r4) => some (⟨sid, sq, dl, b⟩, r4)
        | none => none
      | none => none
    | none => none
  | none => none

theorem decodeInput_encode (i : SPInput) (r : List Nat) :
    decodeInput (encodeInput i ++ r) = some (i, r) := by
  unfold decodeInput encodeInput
  rw [List.append_assoc, List.append_assoc, List.append_assoc, decodeVarint_encode]
  show (match decodeVarint (encodeVarint i.seqNum ++
      (encodeOption i.deadline ++ (encodeBody i.body ++ r))) with
    | some (sq, r2) => _
    | none => none) = _
  rw [decodeVarint_encode]
  show (match decodeOption (encodeOption i.deadline ++ (encodeBody i.body ++ r)) with
    | some (dl, r3) => _
    | none => none) = _
  rw [decodeOption_encode]
  show (match decodeBody (encodeBody i.body ++ r) with
    | some (b, r4) => some ((⟨i.sessionId, i.seqNum, i.deadline, b⟩ : SPInput), r4)
    | none => none) = _
  rw [decodeBody_encode]

/-- Modelled from the spec: canonical bytes of a `SessionProposalOutput`
body. -/
def encodeOutBody : OutBody → List Nat
  | .proposal payload => 0 :: encodeVarint payload
  | .createPrimitive pid => 1 :: encodeVarint pid
  | .closePrimitive => [2]
  | .failure s m => 3 :: (encodeVarint s ++ encodeVarint m)

def decodeOutBody : List Nat → Option (OutBody × List Nat)
  | [] => none
  | t :: r =>
    if t = 0 then
      match decodeVarint r with
      | some (pl, r1) => some (.proposal pl, r1)
      | none => none
    else if t = 1 then
      match decodeVarint r with
      | some (pid, r1) => some (.createPrimitive pid, r1)
      | none => none
    else if t = 2 then some (.closePrimitive, r)
    else if t = 3 then
      match decodeVarint r with
      | some (s, r1) =>
        match decodeVarint r1 with
        | some (m, r2) => some (.failure s m, r2)
        | none => none
      | none => none
    else none

theorem decodeOutBody_encode (b : OutBody) (r : List Nat) :
    decodeOutBody (encodeOutBody b ++ r) = some (b, r) := by
  cases b with
  | proposal pl =>
    show decodeOutBody (0 :: (encodeVarint pl ++ r)) = _
    unfold decodeOutBody
    dsimp only
    rw [if_pos rfl, decodeVarint_encode]
  | createPrimitive pid =>
    show decodeOutBody (1 :: (encodeVarint pid ++ r)) = _
    unfold decodeOutBody
    dsimp only
    rw [if_neg (by decide), if_pos rfl, decodeVarint_encode]
  | closePrimitive =>
    show decodeOutBody (2 :: r) = _
    unfold decodeOutBody
    dsimp only
    rw [if_neg (by decide), if_neg (by decide), if_pos rfl]
  | failure s m =>
    show decodeOutBody (3 :: ((encodeVarint s ++ encodeVarint m) ++ r)) = _
    unfold decodeOutBody
    dsimp only
    rw [if_neg (by decide), if_neg (by decide), if_neg (by decide), if_pos rfl,
      List.append_assoc, decodeVarint_encode]
    show (match decodeVarint (encodeVarint m ++ r) with
      | some (m, r2) => some (OutBody.failure s m, r2)
      | none => none) = _
    rw [decodeVarint_encode]

/-- Modelled from the spec: canonical bytes of one cached output. -/
def encodeOutput (o : SPOutput) : List Nat :=
  encodeVarint o.seqNum ++ encodeOutBody o.body

def decodeOutput (bytes : List Nat) : Option (SPOutput × List Nat) :=
  match decodeVarint bytes with
  | some (sq, r1) =>
    match decodeOutBody r1 with
    | some (b, r2) => some (⟨sq, b⟩, r2)
    | none => none
  | none => none

theorem decodeOutput_encode (o : SPOutput) (r : List Nat) :
    decodeOutput (encodeOutput o ++ r) = some (o, r) := by
  unfold decodeOutput encodeOutput
  rw [List.append_assoc, decodeVarint_encode]
  show (match decodeOutBody (encodeOutBody o.body ++ r) with
    | some (b, r2) => some ((⟨o.seqNum, b⟩ : SPOutput), r2)
    | none => none) = _
  rw [decodeOutBody_encode]

/-- Modelled from the spec: decode a counted sequence of items. -/
def decodeCount {α : Type} (dec : List Nat → Option (α × List Nat)) :
    Nat → List Nat → Option (List α × List Nat)
  | 0, r => some ([], r)
  | n + 1, r =>
    match dec r with
    | some (a, r1) =>
      match decodeCount dec n r1 with
      | some (l, r2) => some (a :: l, r2)
      | none => none
    | none => none

theorem decodeCount_encode {α β : Type} (dec : List Nat → Option (β × List Nat))
    (enc : α → List Nat) (f : α → β)
    (hde : ∀ a r, dec (enc a ++ r) = some (f a, r)) :
    ∀ (l : List α) (r : List Nat),
      decodeCount dec l.length ((l.map enc).flatten ++ r) = some (l.map f, r) := by
  intro l
  induction l with
  | nil => intro r; rfl
  | cons a t ih =>
    intro r
    show decodeCount dec (t.length + 1) ((enc a ++ (t.map enc).flatten) ++ r) =
      some (f a :: t.map f, r)
    unfold decodeCount
    rw [List.append_assoc, hde]
    show (match decodeCount dec t.length ((t.map enc).flatten ++ r) with
      | some (l, r2) => some (f a :: l, r2)
      | none => none) = _
    rw [ih r]

/-- Modelled from the spec: `write_message` frames the canonical body bytes
with a varint length prefix. -/
def writeMessage (b : List Nat) : List Nat := encodeVarint b.length ++ b

/-- Modelled from the spec: `read_message` reads the length prefix, takes
that many bytes and parses them; the parse must consume the frame
exactly. -/
def readMessage {α : Type} (parse : List Nat → Option α) (bytes : List Nat) :
    Option (α × List Nat) :=
  match decodeVarint bytes with
  | some (len, r) =>
    if len ≤ r.length then
      match parse (r.take len) with
      | some a => some (a, r.drop len)
      | none => none
    else none
  | none => none

/-- Run an item decoder on a full frame, requiring it to consume every
byte. -/
def parseFull {α : Type} (dec : List Nat → Option (α × List Nat))
    (b : List Nat) : Option α :=
  match dec b with
  | some (a, r) => if r = [] then some a else none
  | none => none

theorem readMessage_write {α : Type} (parse : List Nat → Option α)
    (b : List Nat) (a : α) (r : List Nat) (hp : parse b = some a) :
    readMessage parse (writeMessage b ++ r) = some (a, r) := by
  unfold readMessage writeMessage
  rw [List.append_assoc, decodeVarint_encode]
  show (if b.length ≤ (b ++ r).length then
    match parse ((b ++ r).take b.length) with
    | some a => some (a, (b ++ r).drop b.length)
    | none => none
    else none) = _
  rw [if_pos (by rw [List.length_append]; omega), List.take_left, List.drop_left, hp]

theorem parseFull_encode {α β : Type} (dec : List Nat → Option (β × List Nat))
    (enc : α → List Nat) (f : α → β)
    (hde : ∀ a r, dec (enc a ++ r) = some (f a, r)) (a : α) :
    parseFull dec (enc a) = some (f a) := by
  unfold parseFull
  have h := hde a []
  rw [List.append_nil] at h
  rw [h]
  rfl

/-- The snapshotted projection of a proposal: exactly the
`SessionProposalSnapshot` fields (index, phase, input, pending outputs,
last output sequence number); the applier handle and timer binding are not
persisted. -/
structure ObsProp where
  id : Nat
  input : SPInput
  phase : Phase
  outputs : List SPOutput
  outputSeqNum : Nat
deriving DecidableEq, Repr

def obsProp (p : SProp) : ObsProp :=
  ⟨p.id, p.input, p.phase, p.outputs, p.outputSeqNum⟩

/-- `sessionProposal.recover` materializes a proposal with no bound parent
handle (outputs are replayed on the next retry); the deadline timer is
reattached at the manager level and is not part of the session-local
record here. -/
def toSProp (o : ObsProp) : SProp :=
  ⟨o.id, o.input, o.phase, none, none, o.outputs, o.outputSeqNum⟩

def phaseTag : Phase → Nat
  | .pending => 0
  | .running => 1
  | .canceled => 2
  | .complete => 3

def tagPhase : Nat → Phase
  | 0 => .pending
  | 1 => .running
  | 2 => .canceled
  | _ => .complete

theorem tagPhase_phaseTag (ph : Phase) : tagPhase (phaseTag ph) = ph := by
  cases ph <;> rfl

def stateTag : SessState → Nat
  | .opened => 0
  | .closed => 1

def tagState : Nat → SessState
  | 0 => .opened
  | _ => .closed

theorem tagState_stateTag (s : SessState) : tagState (stateTag s) = s := by
  cases s <;> rfl

/-- Modelled from the spec: canonical body bytes of a
`SessionProposalSnapshot` (field order: index, phase, input,
pending_outputs, last_output_sequence_num, as in the source struct). -/
def propBodyBytes (o : ObsProp) : List Nat :=
  encodeVarint o.id ++ encodeVarint (phaseTag o.phase) ++ encodeInput o.input ++
    encodeVarint o.outputs.length ++ (o.outputs.map encodeOutput).flatten ++
    encodeVarint o.outputSeqNum

def decodePropBody (bytes : List Nat) : Option (ObsProp × List Nat) :=
  match decodeVarint bytes with
  | some (pid, r1) =>
    match decodeVarint r1 with
    | some (ph, r2) =>
      match decodeInput r2 with
      | some (inp, r3) =>
        match decodeVarint r3 with
        | some (n, r4) =>
          match decodeCount decodeOutput n r4 with
          | some (outs, r5) =>
            match decodeVarint r5 with
            | some (cnt, r6) => some (⟨pid, inp, tagPhase ph, outs, cnt⟩, r6)
            | none => none
          | none => none
        | none => none
      | none => none
    | none => none
  | none => none

theorem decodePropBody_encode (o : ObsProp) (r : List Nat) :
    decodePropBody (propBodyBytes o ++ r) = some (o, r) := by
  unfold decodePropBody propBodyBytes
  rw [List.append_assoc, List.append_assoc, List.append_assoc, List.append_assoc,
    List.append_assoc, decodeVarint_encode]
  show (match decodeVarint (encodeVarint (phaseTag o.phase) ++ (encodeInput o.input ++
      (encodeVarint o.outputs.length ++ ((o.outputs.map encodeOutput).flatten ++
        (encodeVarint o.outputSeqNum ++ r))))) with
    | some (ph, r2) => _
    | none => none) = _
  rw [decodeVarint_encode]
  show (match decodeInput (encodeInput o.input ++ (encodeVarint o.outputs.length ++
      ((o.outputs.map encodeOutput).flatten ++ (encodeVarint o.outputSeqNum ++ r)))) with
    | some (inp, r3) => _
    | none => none) = _
  rw [decodeInput_encode]
  show (match decodeVarint (encodeVarint o.outputs.length ++
      ((o.outputs.map encodeOutput).flatten ++ (encodeVarint o.outputSeqNum ++ r))) with
    | some (n, r4) => _
    | none => none) = _
  rw [decodeVarint_encode]
  show (match decodeCount decodeOutput o.outputs.length
      ((o.outputs.map encodeOutput).flatten ++ (encodeVarint o.outputSeqNum ++ r)) with
    | some (outs, r5) => _
    | none => none) = _
  rw [decodeCount_encode decodeOutput encodeOutput (fun x => x)
    (fun a rr => decodeOutput_encode a rr) o.outputs (encodeVarint o.outputSeqNum ++ r)]
  show (match decodeVarint (encodeVarint o.outputSeqNum ++ r) with
    | some (cnt, r6) => some ((⟨o.id, o.input, tagPhase (phaseTag o.phase),
        o.outputs.map (fun x => x), cnt⟩ : ObsProp), r6)
    | none => none) = _
  rw [decodeVarint_encode, tagPhase_phaseTag, List.map_id']

/-- Modelled from the spec: one framed `SessionProposalSnapshot`. -/
def propSnap (o : ObsProp) : List Nat := writeMessage (propBodyBytes o)

def recoverProposal (bytes : List Nat) : Option (SProp × List Nat) :=
  match readMessage (parseFull decodePropBody) bytes with
  | some (o, r) => some (toSProp o, r)
  | none => none

theorem recoverProposal_snap (o : ObsProp) (r : List Nat) :
    recoverProposal (propSnap o ++ r) = some (toSProp o, r) := by
  unfold recoverProposal propSnap
  rw [readMessage_write (parseFull decodePropBody) (propBodyBytes o) o r
    (parseFull_encode decodePropBody propBodyBytes (fun x => x)
      (fun a rr => decodePropBody_encode a rr) o)]

/-- Modelled from the spec: canonical body bytes of a `SessionSnapshot`
(session_id, state, timeout, last_updated). -/
def sessHeader (s : Sess) : List Nat :=
  encodeVarint s.sid ++ encodeVarint (stateTag s.state) ++
    encodeVarint s.timeout ++ encodeVarint s.lastUpdated

def decodeSessHeader (bytes : List Nat) :
    Option ((Nat × Nat × Nat × Nat) × List Nat) :=
  match decodeVarint bytes with
  | some (sid, r1) =>
    match decodeVarint r1 with
    | some (stg, r2) =>
      match decodeVarint r2 with
      | some (tov, r3) =>
        match decodeVarint r3 with
        | some (lu, r4) => some ((sid, stg, tov, lu), r4)
        | none => none
      | none => none
    | none => none
  | none => none

theorem decodeSessHeader_encode (s : Sess) (r : List Nat) :
    decodeSessHeader (sessHeader s ++ r) =
      some ((s.sid, stateTag s.state, s.timeout, s.lastUpdated), r) := by
  unfold decodeSessHeader sessHeader
  rw [List.append_assoc, List.append_assoc, List.append_assoc, decodeVarint_encode]
  show (match decodeVarint (encodeVarint (stateTag s.state) ++
      (encodeVarint s.timeout ++ (encodeVarint s.lastUpdated ++ r))) with
    | some (stg, r2) => _
    | none => none) = _
  rw [decodeVarint_encode]
  show (match decodeVarint (encodeVarint s.timeout ++
      (encodeVarint s.lastUpdated ++ r)) with
    | some (tov, r3) => _
    | none => none) = _
  rw [decodeVarint_encode]
  show (match decodeVarint (encodeVarint s.lastUpdated ++ r) with
    | some (lu, r4) => some (((s.sid, stateTag s.state, s.timeout, lu) :
        Nat × Nat × Nat × Nat), r4)
    | none => none) = _
  rw [decodeVarint_encode]

/-- Modelled from the spec: `managedSession.Snapshot` — the framed session
header, the proposal count, then every proposal's framed snapshot in the
in-memory iteration order of `sessionProposals`. -/
def sessionSnapshot (s : Sess) : List Nat :=
  writeMessage (sessHeader s) ++ encodeVarint s.props.length ++
    (s.props.map (fun e => propSnap (obsProp e.2))).flatten

/-- Modelled from the spec: `managedSession.Recover` — exact dual; each
recovered proposal is keyed by its input's client sequence number. -/
def recoverSession (bytes : List Nat) : Option (Sess × List Nat) :=
  match readMessage (parseFull decodeSessHeader) bytes with
  | some ((sid, stg, tov, lu), r1) =>
    match decodeVarint r1 with
    | some (n, r2) =>
      match decodeCount recoverProposal n r2 with
      | some (ps, r3) =>
        some (⟨sid, tagState stg, tov, lu, ps.map (fun p => (p.input.seqNum, p))⟩, r3)
      | none => none
    | none => none
  | none => none

theorem recoverSession_snapshot (s : Sess) (r : List Nat) :
    recoverSession (sessionSnapshot s ++ r) =
      some (⟨s.sid, s.state, s.timeout, s.lastUpdated,
        (s.props.map (fun e => toSProp (obsProp e.2))).map
          (fun p => (p.input.seqNum, p))⟩, r) := by
  unfold recoverSession sessionSnapshot
  rw [List.append_assoc, List.append_assoc,
    readMessage_write (parseFull decodeSessHeader) (sessHeader s)
      (s.sid, stateTag s.state, s.timeout, s.lastUpdated)
      (encodeVarint s.props.length ++ ((s.props.map (fun e => propSnap (obsProp e.2))).flatten ++ r))
      (by
        unfold parseFull
        have h := decodeSessHeader_encode s []
        rw [List.append_nil] at h
        rw [h]
        rfl)]
  show (match decodeVarint (encodeVarint s.props.length ++
      ((s.props.map (fun e => propSnap (obsProp e.2))).flatten ++ r)) with
    | some (n, r2) => _
    | none => none) = _
  rw [decodeVarint_encode]
  show (match decodeCount recoverProposal s.props.length
      ((s.props.map (fun e => propSnap (obsProp e.2))).flatten ++ r) with
    | some (ps, r3) => some ((⟨s.sid, tagState (stateTag s.state), s.timeout,
        s.lastUpdated, ps.map (fun p : SProp => (p.input.seqNum, p))⟩ : Sess), r3)
    | none => none) = _
  have hjoin : (s.props.map (fun e => propSnap (obsProp e.2))).flatten =
      ((s.props.map (fun e => obsProp e.2)).map propSnap).flatten := by
    rw [List.map_map]
    rfl
  have hlen : s.props.length = (s.props.map (fun e => obsProp e.2)).length := by
    rw [List.length_map]
  rw [hjoin, hlen,
    decodeCount_encode recoverProposal propSnap toSProp
      (fun a rr => recoverProposal_snap a rr) (s.props.map (fun e => obsProp e.2)) r,
    tagState_stateTag, List.map_map]
  rfl

/-- C2: Recovering from the bytes produced by snapshotting a reachable
state yields a session observably equal to the original: same id, state,
timeout and last_updated, and the same keyed proposals, each with
identical index, input, phase, cached outputs (contents and order) and
last_output_sequence_num; the trailing bytes (the primitive blob) are
passed through untouched.  Only the applier handle and the timer binding —
which are not part of the snapshot — are reset. -/
theorem c2_snapshot_roundtrip (st : MState) (hreach : Reach st)
    (rest : List Nat) :
    ∃ s', recoverSession (sessionSnapshot st.sess ++ rest) = some (s', rest) ∧
      s'.sid = st.sess.sid ∧ s'.state = st.sess.state ∧
      s'.timeout = st.sess.timeout ∧ s'.lastUpdated = st.sess.lastUpdated ∧
      s'.props.map (fun e => (e.1, obsProp e.2)) =
        st.sess.props.map (fun e => (e.1, obsProp e.2)) := by
  have hinv := reach_inv st hreach
  refine ⟨_, recoverSession_snapshot st.sess rest, rfl, rfl, rfl, rfl, ?_⟩
  show ((st.sess.props.map (fun e => toSProp (obsProp e.2))).map
      (fun p => (p.input.seqNum, p))).map (fun e => (e.1, obsProp e.2)) = _
  rw [List.map_map, List.map_map]
  apply List.map_congr_left
  intro e he
  have hk := hinv.keySeq e he
  show ((e.2.input.seqNum : Nat), obsProp (toSProp (obsProp e.2))) = (e.1, obsProp e.2)
  rw [hk]
  rfl

theorem c2_witness :
    ∃ s', recoverSession (sessionSnapshot c3Pre.sess ++ [5, 6]) =
        some (s', [5, 6]) ∧
      s'.sid = c3Pre.sess.sid ∧ s'.state = c3Pre.sess.state ∧
      s'.timeout = c3Pre.sess.timeout ∧ s'.lastUpdated = c3Pre.sess.lastUpdated ∧
      s'.props.map (fun e => (e.1, obsProp e.2)) =
        c3Pre.sess.props.map (fun e => (e.1, obsProp e.2)) :=
  c2_snapshot_roundtrip c3Pre
    (Reach.step (.propose 8 2 inpC5 []) (Reach.init 9 1 60 0)
      (show (2 : Nat) ∉ (openState 9 1 60 0).usedIds by decide))
    [5, 6]

/-- C9 (amended): The snapshot bytes are a deterministic function of the
observable session fields TOGETHER WITH the in-memory iteration order of
`sessionProposals`: two sessions with equal header fields whose proposal
sequences coincide entrywise on the snapshotted projection (handle and
timer bindings are irrelevant) produce bit-identical bytes.  Bit-exactness
across replicas therefore holds only as far as the map iteration order
coincides — Go map iteration order is not deterministic, and permuting it
changes the bytes (see the counterexample). -/
theorem c9_snapshot_deterministic (s1 s2 : Sess)
    (hsid : s1.sid = s2.sid) (hst : s1.state = s2.state)
    (hto : s1.timeout = s2.timeout) (hlu : s1.lastUpdated = s2.lastUpdated)
    (hp : s1.props.map (fun e => obsProp e.2) =
      s2.props.map (fun e => obsProp e.2)) :
    sessionSnapshot s1 = sessionSnapshot s2 := by
  have hlen : s1.props.length = s2.props.length := by
    have h := congrArg List.length hp
    rw [List.length_map, List.length_map] at h
    exact h
  have hbytes : s1.props.map (fun e => propSnap (obsProp e.2)) =
      s2.props.map (fun e => propSnap (obsProp e.2)) := by
    have h1 : s1.props.map (fun e => propSnap (obsProp e.2)) =
        (s1.props.map (fun e => obsProp e.2)).map propSnap := by
      rw [List.map_map]
      rfl
    have h2 : s2.props.map (fun e => propSnap (obsProp e.2)) =
        (s2.props.map (fun e => obsProp e.2)).map propSnap := by
      rw [List.map_map]
      rfl
    rw [h1, h2, hp]
  unfold sessionSnapshot sessHeader
  rw [hsid, hst, hto, hlu, hlen, hbytes]

/-- The two proposals of the C9 counterexample, inserted in opposite
orders on the two replicas. -/
def inpC9a : SPInput := ⟨1, 1, none, .proposal 1 0⟩

def inpC9b : SPInput := ⟨1, 2, none, .proposal 1 5⟩

def stC9a : MState :=
  runEvs (openState 9 1 60 0) [.propose 8 2 inpC9a [], .propose 8 3 inpC9b []]

def stC9b : MState :=
  runEvs (openState 9 1 60 0) [.propose 8 3 inpC9b [], .propose 8 2 inpC9a []]

/-- Counterexample to C9 as stated: the two reachable states hold the very
same session proposals (the proposal maps are equal — the entry lists are
permutations of each other), with identical header fields, yet iterating
them in their respective in-memory orders produces different snapshot
bytes.  Go map iteration order is exactly this unconstrained. -/
theorem c9_counterexample :
    stC9a.sess.props.Perm stC9b.sess.props ∧
    stC9a.sess.sid = stC9b.sess.sid ∧
    stC9a.sess.state = stC9b.sess.state ∧
    stC9a.sess.timeout = stC9b.sess.timeout ∧
    stC9a.sess.lastUpdated = stC9b.sess.lastUpdated ∧
    sessionSnapshot stC9a.sess ≠ sessionSnapshot stC9b.sess := by decide

/-- Two sessions that differ only in the non-snapshotted handle and timer
bindings of their single proposal. -/
def sC9w1 : Sess :=
  ⟨1, .opened, 60, 0, [(1, ⟨2, inpC9a, .running, some 8, some 3, [], 0⟩)]⟩

def sC9w2 : Sess :=
  ⟨1, .opened, 60, 0, [(1, ⟨2, inpC9a, .running, none, none, [], 0⟩)]⟩

theorem c9_witness : sessionSnapshot sC9w1 = sessionSnapshot sC9w2 :=
  c9_snapshot_deterministic sC9w1 sC9w2 rfl rfl rfl rfl rfl

end SessionSM
